import Mathlib

/-!
# Verification of the lattice-symmetries core

A shallow embedding of the symmetry-group core of the `lattice-symmetries`
library (files `symmetry.cpp` and `state_info.cpp`), together with proofs
of the specification's claims about it.

The embedding covers:
* the symmetry-spec algebra (`rational_add`, `equal`, `compose`),
* the group-closure engine (`make_group`),
* the C-ABI group facade (`ls_create_trivial_group`,
  `ls_group_dump_symmetry_info`),
* the representative finder (`get_state_info` / `is_representative`),
  both the SIMD batched 64-bit path and the scalar 512-bit path.

Machine integers are modelled as `Nat` with explicit reductions modulo
`2 ^ 32` / `2 ^ 16` at the points where the C++ code performs unsigned
arithmetic that can wrap or truncating casts.  `double` values that carry
eigenvalue data are modelled as exact rationals; the final `std::sqrt` is
modelled as `Real.sqrt` in a thin wrapper around the otherwise executable
computation.
-/

namespace LatticeSymmetries

/-- The domain error codes surfaced across the C ABI (`ls_error_code`). -/
inductive ls_error_code where
  | Success
  | IncompatibleSymmetries
  | InvalidNumberSpins
  | SystemError
deriving DecidableEq, Repr

/-- `symmetry_spec_t`: a permutation together with a rational phase, the
value type manipulated by the group-closure engine.  Field values are
`uint16_t` in the C++ code; the `Nat` values stored here are kept within
`uint16_t` range by the validity predicate below. -/
structure symmetry_spec_t where
  permutation : List Nat
  sector : Nat
  periodicity : Nat
deriving DecidableEq, Repr

/-- `rational_add` from `symmetry.cpp`: adds two fractions, reduces by the
gcd and takes the numerator modulo the denominator.  The arithmetic is
C `unsigned` (32-bit) arithmetic, so the numerator sum is reduced modulo
`2 ^ 32`; each individual product of two `uint16_t` values is below
`2 ^ 32` already, and so is the denominator product. -/
def rational_add (a b : Nat × Nat) : Nat × Nat :=
  let p := (a.1 * b.2 % 2 ^ 32 + b.1 * a.2 % 2 ^ 32) % 2 ^ 32
  let q := a.2 * b.2 % 2 ^ 32
  let m := Nat.gcd p q
  let p' := p / m
  let q' := q / m
  (p' % q', q')

/-- `equal` from `symmetry.cpp`: equality of two symmetry specs.  Fails
with `IncompatibleSymmetries` when the permutation lengths differ, or when
the permutations and periodicities agree but the sectors do not. -/
def equal (x y : symmetry_spec_t) : Except ls_error_code Bool :=
  if x.permutation.length ≠ y.permutation.length then
    .error .IncompatibleSymmetries
  else if x.periodicity ≠ y.periodicity then .ok false
  else if x.permutation = y.permutation then
    if x.sector ≠ y.sector then .error .IncompatibleSymmetries else .ok true
  else .ok false

/-- A valid symmetry spec as described by the specification's data model:
the permutation is a bijection on `[0, N)` with `N ≤ 512`, the sector lies
in `[0, periodicity)`, and the `uint16_t` fields hold their values exactly.
(The relation between `periodicity` and the order of `permutation` is
stated separately where a claim needs it.) -/
def isValidSpecData (x : symmetry_spec_t) : Prop :=
  (∀ i ∈ x.permutation, i < x.permutation.length) ∧
  x.permutation.Nodup ∧
  x.permutation.length ≤ 512 ∧
  x.sector < x.periodicity ∧
  x.periodicity < 2 ^ 16

instance (x : symmetry_spec_t) : Decidable (isValidSpecData x) := by
  unfold isValidSpecData; infer_instance

deriving instance DecidableEq for Except

/-- Number of steps needed to walk from `cur` back to `start` along the
permutation `p`, with explicit fuel; returns `0` when the fuel runs out
(which cannot happen for a valid permutation with fuel `p.length`). -/
def cycleLenAux (p : List Nat) (start : Nat) : Nat → Nat → Nat
  | 0, _ => 0
  | fuel + 1, cur =>
    if cur = start then 1 else 1 + cycleLenAux p start fuel (p.getD cur cur)

/-- Length of the cycle of `i` under the permutation `p`. -/
def cycleLen (p : List Nat) (i : Nat) : Nat :=
  cycleLenAux p i p.length (p.getD i i)

/-- Modelled from the spec: `compute_periodicity`, the external
collaborator that computes the order (periodicity) of a permutation — the
smallest positive `k` with `permutation ^ k = identity` — realized as the
least common multiple of the lengths of the permutation's cycles. -/
def compute_periodicity (p : List Nat) : Nat :=
  (List.range p.length).foldr (fun i acc => Nat.lcm (cycleLen p i) acc) 1

/-- The composed permutation built by `compose` in `symmetry.cpp`:
index `i` is mapped to `x.permutation[y.permutation[i]]` (apply `y`,
then `x`). -/
def compose_permutation (x y : symmetry_spec_t) : List Nat :=
  (List.range x.permutation.length).map fun i =>
    x.permutation.getD (y.permutation.getD i 0) 0

/-- `compose` from `symmetry.cpp`.  Fails when the permutation lengths
differ; composes the permutations, asks the external collaborator for the
composed permutation's periodicity, adds the two phases with
`rational_add`, fails with `IncompatibleSymmetries` when the reduced
denominator exceeds the periodicity or does not divide it, and otherwise
re-expresses the phase in units of the new periodicity.  The final stores
into the `uint16_t` fields of `symmetry_spec_t` truncate modulo `2 ^ 16`. -/
def compose (x y : symmetry_spec_t) : Except ls_error_code symmetry_spec_t :=
  if x.permutation.length ≠ y.permutation.length then
    .error .IncompatibleSymmetries
  else
    let permutation := compose_permutation x y
    let periodicity := compute_periodicity permutation
    let phase := rational_add (x.sector, x.periodicity) (y.sector, y.periodicity)
    if phase.2 > periodicity then .error .IncompatibleSymmetries
    else if periodicity % phase.2 ≠ 0 then .error .IncompatibleSymmetries
    else
      .ok ⟨permutation, phase.1 * (periodicity / phase.2) % 2 ^ 16,
        periodicity % 2 ^ 16⟩

/-- The phase sum as the claim describes it: the exact (non-wrapping) sum
of the fractions `x.sector / x.periodicity` and `y.sector / y.periodicity`
reduced to lowest terms, with the numerator taken modulo the denominator. -/
def claimPhase (x y : symmetry_spec_t) : Nat × Nat :=
  let n := x.sector * y.periodicity + y.sector * x.periodicity
  let d := x.periodicity * y.periodicity
  let g := Nat.gcd n d
  ((n / g) % (d / g), d / g)

/-- When none of the 32-bit intermediate computations wrap, `rational_add`
computes exactly the reduced sum of fractions described by the claim. -/
lemma rational_add_eq_claimPhase (x y : symmetry_spec_t)
    (hxP : x.periodicity < 2 ^ 16) (hyP : y.periodicity < 2 ^ 16)
    (hov : x.sector * y.periodicity + y.sector * x.periodicity < 2 ^ 32) :
    rational_add (x.sector, x.periodicity) (y.sector, y.periodicity) =
      claimPhase x y := by
  have h1 : x.sector * y.periodicity < 2 ^ 32 :=
    lt_of_le_of_lt (Nat.le_add_right _ _) hov
  have h2 : y.sector * x.periodicity < 2 ^ 32 :=
    lt_of_le_of_lt (Nat.le_add_left _ _) hov
  have h3 : x.periodicity * y.periodicity < 2 ^ 32 := by
    calc x.periodicity * y.periodicity < 2 ^ 16 * 2 ^ 16 :=
          Nat.mul_lt_mul_of_lt_of_lt hxP hyP
      _ = 2 ^ 32 := by norm_num
  simp only [rational_add, claimPhase, Nat.mod_eq_of_lt h1, Nat.mod_eq_of_lt h2,
    Nat.mod_eq_of_lt hov, Nat.mod_eq_of_lt h3]

/- ### Claim C1: behaviour of `compose` -/

/-- First spec of the C1 counterexample: disjoint cycles of lengths
16, 9, 5, 7 and 11 on the points `0..47` (so the permutation has order
`16 * 9 * 5 * 7 * 11 = 55440`), and fixed points 48 and 49. -/
def c1PermX : List Nat :=
  [1, 2, 3, 4, 5, 6, 7, 8, 9, 10, 11, 12, 13, 14, 15, 0,
   17, 18, 19, 20, 21, 22, 23, 24, 16,
   26, 27, 28, 29, 25,
   31, 32, 33, 34, 35, 36, 30,
   38, 39, 40, 41, 42, 43, 44, 45, 46, 47, 37,
   48, 49]

/-- Second spec of the C1 counterexample: the inverse of `c1PermX` on
`0..47` together with a transposition of 48 and 49 (order
`lcm 55440 2 = 55440`), so that the composition is just that
transposition, of order 2. -/
def c1PermY : List Nat :=
  [15, 0, 1, 2, 3, 4, 5, 6, 7, 8, 9, 10, 11, 12, 13, 14,
   24, 16, 17, 18, 19, 20, 21, 22, 23,
   29, 25, 26, 27, 28,
   36, 30, 31, 32, 33, 34, 35,
   47, 37, 38, 39, 40, 41, 42, 43, 44, 45, 46,
   49, 48]

/-- The C1 counterexample specs.  Their exact phase sum is
`55439/55440 + 27721/55440 = 3/2`, but the raw 32-bit numerator
`55439 * 55440 + 27721 * 55440 = 4610390400` wraps modulo `2 ^ 32`. -/
def c1SpecX : symmetry_spec_t := ⟨c1PermX, 55439, 55440⟩

/-- Companion spec of `c1SpecX` in the C1 counterexample. -/
def c1SpecY : symmetry_spec_t := ⟨c1PermY, 27721, 55440⟩

set_option maxRecDepth 8000 in
/-- **C1, counterexample.**  Two valid symmetry specs (each periodicity is
the order of its permutation, sectors lie below the periodicities, and all
values fit in `uint16_t`) with equal permutation lengths on which
`compose` fails with `IncompatibleSymmetries` even though the reduced
exact phase sum `(p, q) = (1, 2)` satisfies `q ≤ P` and `P % q = 0` for
the composed permutation's order `P = 2`, so the claim says the
composition must succeed.  The discrepancy comes from the 32-bit wrap of
the raw numerator inside `rational_add`. -/
theorem C1_compose_counterexample :
    isValidSpecData c1SpecX ∧ isValidSpecData c1SpecY ∧
    c1SpecX.permutation.length = c1SpecY.permutation.length ∧
    c1SpecX.periodicity = compute_periodicity c1SpecX.permutation ∧
    c1SpecY.periodicity = compute_periodicity c1SpecY.permutation ∧
    compose c1SpecX c1SpecY = .error .IncompatibleSymmetries ∧
    ¬((claimPhase c1SpecX c1SpecY).2 >
        compute_periodicity (compose_permutation c1SpecX c1SpecY) ∨
      compute_periodicity (compose_permutation c1SpecX c1SpecY) %
        (claimPhase c1SpecX c1SpecY).2 ≠ 0) := by
  decide

/-- **C1, amended.**  For valid symmetry specs with equal permutation
lengths, *provided the raw 32-bit numerator of the phase sum does not wrap
and the composed permutation's order fits in `uint16_t`*, `compose`
behaves exactly as the claim states: with `P` the order of the composed
permutation and `(p, q)` the exact reduced phase sum, it fails with
`IncompatibleSymmetries` exactly when `q > P` or `P % q ≠ 0`, and
otherwise returns the composed permutation with periodicity `P` and
sector `p * (P / q)`, which lies in `[0, P)`. -/
theorem C1_compose_amended (x y : symmetry_spec_t)
    (hvx : isValidSpecData x) (hvy : isValidSpecData y)
    (hlen : x.permutation.length = y.permutation.length)
    (hov : x.sector * y.periodicity + y.sector * x.periodicity < 2 ^ 32)
    (hP16 : compute_periodicity (compose_permutation x y) < 2 ^ 16) :
    (compose x y = .error .IncompatibleSymmetries ↔
      (claimPhase x y).2 > compute_periodicity (compose_permutation x y) ∨
        compute_periodicity (compose_permutation x y) %
          (claimPhase x y).2 ≠ 0) ∧
    ((claimPhase x y).2 ≤ compute_periodicity (compose_permutation x y) →
      compute_periodicity (compose_permutation x y) % (claimPhase x y).2 = 0 →
      compose x y = .ok ⟨compose_permutation x y,
          (claimPhase x y).1 *
            (compute_periodicity (compose_permutation x y) / (claimPhase x y).2),
          compute_periodicity (compose_permutation x y)⟩ ∧
        (claimPhase x y).1 *
            (compute_periodicity (compose_permutation x y) / (claimPhase x y).2) <
          compute_periodicity (compose_permutation x y)) := by
  obtain ⟨-, -, -, hx, hxP⟩ := hvx
  obtain ⟨-, -, -, hy, hyP⟩ := hvy
  have hra := rational_add_eq_claimPhase x y hxP hyP hov
  have hdpos : 0 < x.periodicity * y.periodicity :=
    Nat.mul_pos (Nat.lt_of_le_of_lt (Nat.zero_le _) hx)
      (Nat.lt_of_le_of_lt (Nat.zero_le _) hy)
  have hq2 : (claimPhase x y).2 =
      x.periodicity * y.periodicity /
        Nat.gcd (x.sector * y.periodicity + y.sector * x.periodicity)
          (x.periodicity * y.periodicity) := rfl
  have hgdvd : Nat.gcd (x.sector * y.periodicity + y.sector * x.periodicity)
      (x.periodicity * y.periodicity) ∣ x.periodicity * y.periodicity :=
    Nat.gcd_dvd_right _ _
  have hq_pos : 0 < (claimPhase x y).2 := by
    rw [hq2]
    exact Nat.div_pos (Nat.le_of_dvd hdpos hgdvd)
      (Nat.gcd_pos_of_pos_right _ hdpos)
  have hp_lt : (claimPhase x y).1 < (claimPhase x y).2 := Nat.mod_lt _ hq_pos
  have hcompose : compose x y =
      (if (claimPhase x y).2 > compute_periodicity (compose_permutation x y)
        then .error .IncompatibleSymmetries
      else if compute_periodicity (compose_permutation x y) %
          (claimPhase x y).2 ≠ 0 then .error .IncompatibleSymmetries
      else .ok ⟨compose_permutation x y,
        (claimPhase x y).1 *
          (compute_periodicity (compose_permutation x y) / (claimPhase x y).2)
          % 2 ^ 16,
        compute_periodicity (compose_permutation x y) % 2 ^ 16⟩) := by
    simp only [compose, hra, hlen, ne_eq, not_true_eq_false, if_false,
      ite_false]
  constructor
  · rw [hcompose]
    split_ifs with h1 h2 <;> simp_all
  · intro h1 h2
    have hdvd : (claimPhase x y).2 ∣ compute_periodicity (compose_permutation x y) :=
      Nat.dvd_of_mod_eq_zero h2
    have hdivpos :
        0 < compute_periodicity (compose_permutation x y) / (claimPhase x y).2 :=
      Nat.div_pos h1 hq_pos
    have hsec_lt : (claimPhase x y).1 *
        (compute_periodicity (compose_permutation x y) / (claimPhase x y).2) <
        compute_periodicity (compose_permutation x y) := by
      calc (claimPhase x y).1 *
          (compute_periodicity (compose_permutation x y) / (claimPhase x y).2)
          < (claimPhase x y).2 *
            (compute_periodicity (compose_permutation x y) / (claimPhase x y).2) :=
            (Nat.mul_lt_mul_right hdivpos).mpr hp_lt
        _ = compute_periodicity (compose_permutation x y) :=
            Nat.mul_div_cancel' hdvd
    refine ⟨?_, hsec_lt⟩
    rw [hcompose, if_neg (by omega), if_neg (by omega)]
    rw [Nat.mod_eq_of_lt (hsec_lt.trans hP16), Nat.mod_eq_of_lt hP16]

/-- The 4-site cyclic shift with trivial phase, used as a witness input. -/
def shift4 : symmetry_spec_t := ⟨[1, 2, 3, 0], 0, 4⟩

/-- Witness for the amended C1 at the 4-site shift composed with itself:
the composition succeeds with the squared shift, periodicity 2 and
sector 0, and the sector lies below the periodicity. -/
theorem C1_compose_amended_witness :
    compose shift4 shift4 = .ok ⟨[2, 3, 0, 1], 0, 2⟩ ∧ (0 : Nat) < 2 := by
  have h := (C1_compose_amended shift4 shift4 (by decide) (by decide)
    (by decide) (by decide) (by decide)).2 (by decide) (by decide)
  exact ⟨h.1, h.2⟩

/- ### Claim C6: behaviour of `equal` -/

/-- **C6.** For every pair of symmetry specs, `equal` fails with
`IncompatibleSymmetries` when the permutation lengths differ; otherwise it
returns `false` when the periodicities differ, returns `false` when the
permutations differ, fails with `IncompatibleSymmetries` when permutations
and periodicities match but sectors differ, returns `true` otherwise, and
in particular `equal x x = true` for every spec `x`. -/
theorem C6_equal_cases (x y : symmetry_spec_t) :
    (x.permutation.length ≠ y.permutation.length →
      equal x y = .error .IncompatibleSymmetries) ∧
    (x.permutation.length = y.permutation.length →
      x.periodicity ≠ y.periodicity → equal x y = .ok false) ∧
    (x.permutation.length = y.permutation.length →
      x.periodicity = y.periodicity → x.permutation ≠ y.permutation →
      equal x y = .ok false) ∧
    (x.permutation.length = y.permutation.length →
      x.periodicity = y.periodicity → x.permutation = y.permutation →
      x.sector ≠ y.sector → equal x y = .error .IncompatibleSymmetries) ∧
    (x.permutation.length = y.permutation.length →
      x.periodicity = y.periodicity → x.permutation = y.permutation →
      x.sector = y.sector → equal x y = .ok true) ∧
    equal x x = .ok true := by
  refine ⟨?_, ?_, ?_, ?_, ?_, ?_⟩ <;> intros <;> simp_all [equal]

/- ### The group-closure engine (`make_group`) -/

/-- The `contains` helper of `make_group`: scans a list with `equal`,
propagating any `IncompatibleSymmetries` error. -/
def contains : List symmetry_spec_t → symmetry_spec_t →
    Except ls_error_code Bool
  | [], _ => .ok false
  | g :: rest, x =>
    match equal g x with
    | .error e => .error e
    | .ok true => .ok true
    | .ok false => contains rest x

/-- The generator-deduplication phase of `make_group`: each generator is
appended to the accumulator unless an `equal` element is already there. -/
def dedup_generators : List symmetry_spec_t → List symmetry_spec_t →
    Except ls_error_code (List symmetry_spec_t)
  | [], acc => .ok acc
  | g :: rest, acc =>
    match contains acc g with
    | .error e => .error e
    | .ok true => dedup_generators rest acc
    | .ok false => dedup_generators rest (acc ++ [g])

/-- One round of the closure loop, iterating over the remaining ordered
pairs: each composition that is neither in the group nor already collected
this round is appended to `extra`.  The second `contains` is not evaluated
when the first one returns `true` (C++ short-circuit `&&`). -/
def closure_round_go (group : List symmetry_spec_t) :
    List (symmetry_spec_t × symmetry_spec_t) → List symmetry_spec_t →
    Except ls_error_code (List symmetry_spec_t)
  | [], extra => .ok extra
  | p :: rest, extra =>
    match compose p.1 p.2 with
    | .error e => .error e
    | .ok g =>
      match contains group g with
      | .error e => .error e
      | .ok true => closure_round_go group rest extra
      | .ok false =>
        match contains extra g with
        | .error e => .error e
        | .ok true => closure_round_go group rest extra
        | .ok false => closure_round_go group rest (extra ++ [g])

/-- All ordered pairs of group elements, in the row-major order of the two
nested C++ loops. -/
def allPairs (group : List symmetry_spec_t) :
    List (symmetry_spec_t × symmetry_spec_t) :=
  group.flatMap fun g1 => group.map fun g2 => (g1, g2)

/-- One full round of the closure loop. -/
def closure_round (group : List symmetry_spec_t) :
    Except ls_error_code (List symmetry_spec_t) :=
  closure_round_go group (allPairs group) []

/-- The closure loop of `make_group`.  The C++ `for (;;)` loop terminates
by saturation; here it carries explicit fuel, returning `none` when the
fuel runs out (`some` results correspond exactly to runs of the C++ loop). -/
def make_group_loop : Nat → List symmetry_spec_t →
    Except ls_error_code (Option (List symmetry_spec_t))
  | 0, _ => .ok none
  | fuel + 1, group =>
    match closure_round group with
    | .error e => .error e
    | .ok [] => .ok (some group)
    | .ok extra => make_group_loop fuel (group ++ extra)

/-- `make_group` from `symmetry.cpp`: an empty generator list yields the
empty group; otherwise the generators are deduplicated and the closure
loop runs until saturation. -/
def make_group (generators : List symmetry_spec_t) (fuel : Nat) :
    Except ls_error_code (Option (List symmetry_spec_t)) :=
  if generators.isEmpty then .ok (some [])
  else
    match dedup_generators generators [] with
    | .error e => .error e
    | .ok group => make_group_loop fuel group

/-- `equal` is reflexive (always `ok true`, with no error). -/
lemma equal_refl (x : symmetry_spec_t) : equal x x = .ok true := by
  simp [equal]

/-- `equal` returns `true` exactly on syntactically identical specs. -/
lemma equal_ok_true_iff (x y : symmetry_spec_t) :
    equal x y = .ok true ↔ x = y := by
  constructor
  · intro h
    unfold equal at h
    split_ifs at h <;> (cases x; cases y; simp_all)
  · rintro rfl
    exact equal_refl x

/-- If `equal x y` returns `true` then so does `equal y x`. -/
lemma equal_comm_true {x y : symmetry_spec_t} (h : equal x y = .ok true) :
    equal y x = .ok true := by
  rw [equal_ok_true_iff] at h ⊢
  exact h.symm

/-- `contains` returns `false` exactly when `equal` returns `false`
against every element. -/
lemma contains_ok_false_iff (gs : List symmetry_spec_t)
    (x : symmetry_spec_t) :
    contains gs x = .ok false ↔ ∀ g ∈ gs, equal g x = .ok false := by
  induction gs with
  | nil => simp [contains]
  | cons g rest ih =>
    simp only [contains, List.mem_cons]
    rcases hg : equal g x with e | b
    · simp [hg]
    · cases b <;> simp_all

/-- If `contains` returns `true`, some element compares `equal` (with
result `true`). -/
lemma contains_ok_true {gs : List symmetry_spec_t} {x : symmetry_spec_t}
    (h : contains gs x = .ok true) : ∃ g ∈ gs, equal g x = .ok true := by
  induction gs with
  | nil => simp [contains] at h
  | cons g rest ih =>
    simp only [contains] at h
    rcases hg : equal g x with e | b
    · simp [hg] at h
    · cases b
      · rw [hg] at h
        obtain ⟨g', hg', he⟩ := ih h
        exact ⟨g', List.mem_cons_of_mem _ hg', he⟩
      · exact ⟨g, List.mem_cons_self _ _, hg⟩

/-- The relation used for the duplicate-freeness claim: two specs compare
`equal` with result `false` (in particular without error). -/
def notEqualRel (a b : symmetry_spec_t) : Prop := equal a b = .ok false

/-- A spec is contained up to `equal` in a list. -/
def MemUpTo (G : List symmetry_spec_t) (x : symmetry_spec_t) : Prop :=
  ∃ h ∈ G, equal x h = .ok true

lemma MemUpTo.mono {G G' : List symmetry_spec_t} {x : symmetry_spec_t}
    (hsub : ∀ a ∈ G, a ∈ G') (h : MemUpTo G x) : MemUpTo G' x := by
  obtain ⟨g, hg, he⟩ := h
  exact ⟨g, hsub g hg, he⟩

/-- The deduplication phase only ever appends to its accumulator. -/
lemma dedup_generators_subset :
    ∀ (gens acc G : List symmetry_spec_t),
      dedup_generators gens acc = .ok G → ∀ a ∈ acc, a ∈ G := by
  intro gens
  induction gens with
  | nil =>
    intro acc G h
    simp only [dedup_generators] at h
    cases h
    exact fun a ha => ha
  | cons g rest ih =>
    intro acc G h
    simp only [dedup_generators] at h
    rcases hc : contains acc g with e | b
    · rw [hc] at h; cases h
    · cases b <;> rw [hc] at h
      · intro a ha
        exact ih _ _ h a (List.mem_append_left _ ha)
      · exact ih _ _ h

/-- Every processed generator is `MemUpTo` the deduplication result. -/
lemma dedup_generators_mem :
    ∀ (gens acc G : List symmetry_spec_t),
      dedup_generators gens acc = .ok G → ∀ g ∈ gens, MemUpTo G g := by
  intro gens
  induction gens with
  | nil => intro acc G _ g hg; simp at hg
  | cons g rest ih =>
    intro acc G h g' hg'
    simp only [dedup_generators] at h
    rcases hc : contains acc g with e | b
    · rw [hc] at h; cases h
    · rcases List.mem_cons.mp hg' with rfl | hmem
      · cases b <;> rw [hc] at h
        · refine ⟨g', dedup_generators_subset _ _ _ h g' ?_, equal_refl g'⟩
          simp
        · obtain ⟨h0, hh0, he0⟩ := contains_ok_true hc
          exact ⟨h0, dedup_generators_subset _ _ _ h h0 hh0,
            equal_comm_true he0⟩
      · cases b <;> rw [hc] at h <;> exact ih _ _ h g' hmem

/-- The deduplication phase preserves pairwise non-equality of the
accumulator. -/
lemma dedup_generators_pairwise :
    ∀ (gens acc G : List symmetry_spec_t),
      dedup_generators gens acc = .ok G → acc.Pairwise notEqualRel →
      G.Pairwise notEqualRel := by
  intro gens
  induction gens with
  | nil =>
    intro acc G h hp
    simp only [dedup_generators] at h
    cases h; exact hp
  | cons g rest ih =>
    intro acc G h hp
    simp only [dedup_generators] at h
    rcases hc : contains acc g with e | b
    · rw [hc] at h; cases h
    · cases b <;> rw [hc] at h
      · refine ih _ _ h ?_
        rw [List.pairwise_append]
        refine ⟨hp, List.pairwise_singleton _ _, ?_⟩
        intro a ha b hb
        rw [List.mem_singleton] at hb
        subst hb
        exact (contains_ok_false_iff _ _).mp hc a ha
      · exact ih _ _ h hp

/-- If a closure round returns an empty `extra` list, the round started
with an empty `extra`, every pair composed successfully, and every
composition was already contained (up to `equal`) in the group. -/
lemma closure_round_go_empty (group : List symmetry_spec_t) :
    ∀ (pairs : List (symmetry_spec_t × symmetry_spec_t))
      (extra : List symmetry_spec_t),
      closure_round_go group pairs extra = .ok [] →
      extra = [] ∧ ∀ p ∈ pairs, ∃ c, compose p.1 p.2 = .ok c ∧
        contains group c = .ok true := by
  intro pairs
  induction pairs with
  | nil =>
    intro extra h
    simp only [closure_round_go] at h
    cases h
    exact ⟨rfl, by simp⟩
  | cons p rest ih =>
    intro extra h
    rcases hcomp : compose p.1 p.2 with e | g
    · simp [closure_round_go, hcomp] at h
    · rcases hg : contains group g with e | b
      · simp [closure_round_go, hcomp, hg] at h
      · cases b
        · rcases he : contains extra g with e | b2
          · simp [closure_round_go, hcomp, hg, he] at h
          · cases b2
            · simp only [closure_round_go, hcomp, hg, he] at h
              obtain ⟨hnil, -⟩ := ih _ h
              simp at hnil
            · simp only [closure_round_go, hcomp, hg, he] at h
              obtain ⟨rfl, -⟩ := ih _ h
              simp [contains] at he
        · simp only [closure_round_go, hcomp, hg] at h
          obtain ⟨rfl, hrest⟩ := ih _ h
          refine ⟨rfl, fun q hq => ?_⟩
          rcases List.mem_cons.mp hq with rfl | hq'
          · exact ⟨g, hcomp, hg⟩
          · exact hrest q hq'

/-- Invariant carried by the `extra` list during a closure round: its
elements are pairwise non-`equal` and non-`equal` to every group element. -/
def ExtInv (group extra : List symmetry_spec_t) : Prop :=
  extra.Pairwise notEqualRel ∧ ∀ a ∈ group, ∀ b ∈ extra, notEqualRel a b

/-- A closure round preserves the `extra` invariant: every element pushed
was contained neither in the group nor in the collected list. -/
lemma closure_round_go_inv (group : List symmetry_spec_t) :
    ∀ (pairs : List (symmetry_spec_t × symmetry_spec_t))
      (extra extra' : List symmetry_spec_t),
      closure_round_go group pairs extra = .ok extra' →
      ExtInv group extra → ExtInv group extra' := by
  intro pairs
  induction pairs with
  | nil =>
    intro extra extra' h hinv
    simp only [closure_round_go] at h
    cases h
    exact hinv
  | cons p rest ih =>
    intro extra extra' h hinv
    rcases hcomp : compose p.1 p.2 with e | g
    · simp [closure_round_go, hcomp] at h
    · rcases hg : contains group g with e | b
      · simp [closure_round_go, hcomp, hg] at h
      · cases b
        · rcases he : contains extra g with e | b2
          · simp [closure_round_go, hcomp, hg, he] at h
          · cases b2
            · simp only [closure_round_go, hcomp, hg, he] at h
              refine ih _ _ h ⟨?_, ?_⟩
              · rw [List.pairwise_append]
                refine ⟨hinv.1, List.pairwise_singleton _ _, ?_⟩
                intro a ha b hb
                rw [List.mem_singleton] at hb
                subst hb
                exact (contains_ok_false_iff _ _).mp he a ha
              · intro a ha b hb
                rcases List.mem_append.mp hb with hb' | hb'
                · exact hinv.2 a ha b hb'
                · rw [List.mem_singleton] at hb'
                  subst hb'
                  exact (contains_ok_false_iff _ _).mp hg a ha
            · simp only [closure_round_go, hcomp, hg, he] at h
              exact ih _ _ h hinv
        · simp only [closure_round_go, hcomp, hg] at h
          exact ih _ _ h hinv

/-- The closure loop only ever appends to the group. -/
lemma make_group_loop_subset :
    ∀ (fuel : Nat) (group G : List symmetry_spec_t),
      make_group_loop fuel group = .ok (some G) → ∀ a ∈ group, a ∈ G := by
  intro fuel
  induction fuel with
  | zero => intro group G h; simp [make_group_loop] at h
  | succ n ih =>
    intro group G h
    rcases hr : closure_round group with e | extra
    · simp [make_group_loop, hr] at h
    · rcases extra with _ | ⟨x, xs⟩
      · simp only [make_group_loop, hr] at h
        cases h
        exact fun a ha => ha
      · simp only [make_group_loop, hr] at h
        intro a ha
        exact ih _ _ h a (List.mem_append_left _ ha)

/-- The closure loop preserves pairwise non-equality of the group. -/
lemma make_group_loop_pairwise :
    ∀ (fuel : Nat) (group G : List symmetry_spec_t),
      make_group_loop fuel group = .ok (some G) →
      group.Pairwise notEqualRel → G.Pairwise notEqualRel := by
  intro fuel
  induction fuel with
  | zero => intro group G h; simp [make_group_loop] at h
  | succ n ih =>
    intro group G h hp
    rcases hr : closure_round group with e | extra
    · simp [make_group_loop, hr] at h
    · rcases extra with _ | ⟨x, xs⟩
      · simp only [make_group_loop, hr] at h
        cases h
        exact hp
      · simp only [make_group_loop, hr] at h
        have hinv : ExtInv group (x :: xs) :=
          closure_round_go_inv group _ _ _ hr ⟨List.Pairwise.nil, by simp⟩
        refine ih _ _ h ?_
        rw [List.pairwise_append]
        exact ⟨hp, hinv.1, hinv.2⟩

/-- Membership in the row-major pair list. -/
lemma mem_allPairs {group : List symmetry_spec_t} {g1 g2 : symmetry_spec_t}
    (h1 : g1 ∈ group) (h2 : g2 ∈ group) : (g1, g2) ∈ allPairs group := by
  simp only [allPairs, List.mem_flatMap, List.mem_map]
  exact ⟨g1, h1, g2, h2, rfl⟩

/-- A group returned by the closure loop is closed under composition up
to `equal`. -/
lemma make_group_loop_closed :
    ∀ (fuel : Nat) (group G : List symmetry_spec_t),
      make_group_loop fuel group = .ok (some G) →
      ∀ g1 ∈ G, ∀ g2 ∈ G, ∃ c, compose g1 g2 = .ok c ∧
        ∃ h0 ∈ G, equal h0 c = .ok true := by
  intro fuel
  induction fuel with
  | zero => intro group G h; simp [make_group_loop] at h
  | succ n ih =>
    intro group G h
    rcases hr : closure_round group with e | extra
    · simp [make_group_loop, hr] at h
    · rcases extra with _ | ⟨x, xs⟩
      · simp only [make_group_loop, hr] at h
        cases h
        intro g1 h1 g2 h2
        obtain ⟨-, hall⟩ := closure_round_go_empty group _ _ hr
        obtain ⟨c, hc, hcont⟩ := hall (g1, g2) (mem_allPairs h1 h2)
        obtain ⟨h0, hh0, he0⟩ := contains_ok_true hcont
        exact ⟨c, hc, h0, hh0, he0⟩
      · simp only [make_group_loop, hr] at h
        exact ih _ _ h

/- ### Claim C2: the closure property of `make_group` -/

/-- **C2.**  Whenever `make_group` succeeds (returning a group within the
given fuel), the returned sequence contains every generator up to
`equal`, contains no two elements that compare `equal` to each other, and
is closed under `compose` up to `equal`: every ordered pair of elements
composes successfully and the composition is `equal` to some element of
the result. -/
theorem C2_make_group_closure (generators G : List symmetry_spec_t)
    (fuel : Nat) (h : make_group generators fuel = .ok (some G)) :
    (∀ g ∈ generators, ∃ h0 ∈ G, equal g h0 = .ok true) ∧
    G.Pairwise notEqualRel ∧
    (∀ g1 ∈ G, ∀ g2 ∈ G, ∃ c, compose g1 g2 = .ok c ∧
      ∃ h0 ∈ G, equal h0 c = .ok true) := by
  unfold make_group at h
  by_cases hemp : generators.isEmpty
  · rw [if_pos hemp] at h
    have hgen : generators = [] := List.isEmpty_iff.mp hemp
    simp only [Except.ok.injEq, Option.some.injEq] at h
    subst hgen
    rw [← h]
    refine ⟨by simp, List.Pairwise.nil, by simp⟩
  · rw [if_neg hemp] at h
    rcases hd : dedup_generators generators [] with e | group0
    · simp [hd] at h
    · simp only [hd] at h
      have hsub := make_group_loop_subset _ _ _ h
      have hpair := make_group_loop_pairwise _ _ _ h
        (dedup_generators_pairwise _ _ _ hd List.Pairwise.nil)
      have hmem := dedup_generators_mem _ _ _ hd
      exact ⟨fun g hg => (hmem g hg).mono hsub, hpair,
        make_group_loop_closed _ _ _ h⟩

/-- The closed group generated by the 4-site shift: the four rotations. -/
def c2Group : List symmetry_spec_t :=
  [⟨[1, 2, 3, 0], 0, 4⟩, ⟨[2, 3, 0, 1], 0, 2⟩,
   ⟨[3, 0, 1, 2], 0, 4⟩, ⟨[0, 1, 2, 3], 0, 1⟩]

/-- Witness for C2: `make_group` on the single 4-site-shift generator
succeeds with the four rotations, and the closure conclusions hold for
that concrete result. -/
theorem C2_make_group_closure_witness :
    make_group [shift4] 5 = .ok (some c2Group) ∧
    (∀ g ∈ [shift4], ∃ h0 ∈ c2Group, equal g h0 = .ok true) ∧
    c2Group.Pairwise notEqualRel ∧
    (∀ g1 ∈ c2Group, ∀ g2 ∈ c2Group, ∃ c, compose g1 g2 = .ok c ∧
      ∃ h0 ∈ c2Group, equal h0 c = .ok true) := by
  have h : make_group [shift4] 5 = .ok (some c2Group) := by decide
  have hc := C2_make_group_closure [shift4] c2Group 5 h
  exact ⟨h, hc.1, hc.2.1, hc.2.2⟩

end LatticeSymmetries

namespace LatticeSymmetries

/- ### The group facade (C-ABI surface) -/

/-- Modelled from the spec: the parameters of a compiled permutation
network (`masks`, `shifts`, `depth`) as reported by the introspection
functions of the external permutation-network compiler. -/
structure network_info_t where
  masks : List Nat
  shifts : List Nat
  depth : Nat
deriving DecidableEq, Repr

/-- A compiled symmetry (`ls_symmetry`): the compiled network of the
spec's permutation together with the number of spins, the sector, the
periodicity and the eigenvalue.  The eigenvalue is a complex number
modelled as a pair of rationals. -/
structure ls_symmetry where
  number_spins : Nat
  network : network_info_t
  sector : Nat
  periodicity : Nat
  eigenvalue : ℚ × ℚ
deriving DecidableEq, Repr

/-- `from_spec` from `symmetry.cpp`: compiles a symmetry spec into an
`ls_symmetry`.  The network compiler (`compile`) and the root-of-unity
eigenvalue computation (`compute_eigenvalue`) are external collaborators,
passed in as parameters. -/
def from_spec (net : List Nat → network_info_t)
    (eig : Nat → Nat → ℚ × ℚ) (spec : symmetry_spec_t) : ls_symmetry :=
  ⟨spec.permutation.length, net spec.permutation, spec.sector,
    spec.periodicity, eig spec.sector spec.periodicity⟩

/-- `make_identity_spec`: the identity permutation with sector 0 and
periodicity 1.  The loop runs a `uint16_t` counter against
`static_cast<uint16_t>(number_spins)`, so the identity is built on
`number_spins mod 2^16` points, not on `number_spins` itself. -/
def make_identity_spec (number_spins : Nat) : symmetry_spec_t :=
  ⟨List.range (number_spins % 2 ^ 16), 0, 1⟩

/-- `ls_create_trivial_group`: fails with `InvalidNumberSpins` when
`number_spins` is zero, and otherwise returns a group holding exactly the
compiled identity spec. -/
def ls_create_trivial_group (net : List Nat → network_info_t)
    (eig : Nat → Nat → ℚ × ℚ) (number_spins : Nat) :
    Except ls_error_code (List ls_symmetry) :=
  if number_spins = 0 then .error .InvalidNumberSpins
  else .ok [from_spec net eig (make_identity_spec number_spins)]

/-- `ls_get_group_size`: the number of compiled symmetries. -/
def ls_get_group_size (group : List ls_symmetry) : Nat := group.length

/-- `ls_group_get_number_spins`: `-1` on an empty group, otherwise the
number of spins of the first element. -/
def ls_group_get_number_spins (group : List ls_symmetry) : Int :=
  match group with
  | [] => -1
  | s :: _ => (s.number_spins : Int)

/-- `ls_group_get_network_depth`: `-1` on an empty group, otherwise the
depth of the first element; `none` models the fatal internal-consistency
check that fires when the elements disagree on the depth. -/
def ls_group_get_network_depth (group : List ls_symmetry) : Option Int :=
  match group with
  | [] => some (-1)
  | s :: rest =>
    if rest.all fun t => t.network.depth = s.network.depth then
      some (s.network.depth : Int)
    else none

/-- The three output buffers of `ls_group_dump_symmetry_info`. -/
structure dump_buffers_t where
  masks : List Nat
  shifts : List Nat
  eigenvalues : List (ℚ × ℚ)
deriving DecidableEq, Repr

/-- Modelled from the spec: `ls_symmetry_get_network_shifts` writes the
symmetry's network shifts at the start of the output buffer. -/
def write_shifts (s : ls_symmetry) (buf : List Nat) : List Nat :=
  s.network.shifts ++ buf.drop s.network.shifts.length

/-- Modelled from the spec: `ls_symmetry_get_network_masks` writes the
symmetry's network masks into column `col` of a row-major buffer whose
rows have length `stride`. -/
def write_masks_col (s : ls_symmetry) (col stride : Nat)
    (buf : List Nat) : List Nat :=
  (List.range s.network.masks.length).foldl
    (fun b j => b.set (j * stride + col) (s.network.masks.getD j 0)) buf

/-- The output loop of `ls_group_dump_symmetry_info`: the element at
offset `i` writes its eigenvalue at position `i` of the eigenvalue buffer
and its masks into column `i` of the mask buffer. -/
def dump_loop (stride : Nat) :
    List ls_symmetry → Nat → dump_buffers_t → dump_buffers_t
  | [], _, bufs => bufs
  | s :: rest, i, bufs =>
    dump_loop stride rest (i + 1)
      ⟨write_masks_col s i stride bufs.masks, bufs.shifts,
        bufs.eigenvalues.set i s.eigenvalue⟩

/-- `ls_group_dump_symmetry_info` from `symmetry.cpp`: detects the empty
group through the `-1` network depth and returns `SystemError` with the
buffers untouched; otherwise writes the shifts of the first element, then
every element's masks and eigenvalue, and returns `Success`.  `none`
models the fatal mismatched-depth check inside the depth query. -/
def ls_group_dump_symmetry_info (group : List ls_symmetry)
    (bufs : dump_buffers_t) : Option (ls_error_code × dump_buffers_t) :=
  match group, ls_group_get_network_depth group with
  | _, none => none
  | [], some _ => some (.SystemError, bufs)
  | s :: _, some _ =>
    some (.Success,
      dump_loop (ls_get_group_size group) group 0
        ⟨bufs.masks, write_shifts s bufs.shifts, bufs.eigenvalues⟩)

/- ### Claim C8: `ls_create_trivial_group` -/

/-- **C8 (amended).**  `create_trivial_group` fails with
`InvalidNumberSpins` exactly when `number_spins = 0`; for every positive
`number_spins` it succeeds with a group of size 1 whose number of spins
is `number_spins mod 2^16` (the identity loop bound is truncated to
`uint16_t`), which equals `number_spins` itself exactly on
`number_spins < 2^16` (for any external network compiler and eigenvalue
computation). -/
theorem C8_create_trivial_group (net : List Nat → network_info_t)
    (eig : Nat → Nat → ℚ × ℚ) (number_spins : Nat) :
    (ls_create_trivial_group net eig number_spins =
        .error .InvalidNumberSpins ↔ number_spins = 0) ∧
    (0 < number_spins → ∃ g,
      ls_create_trivial_group net eig number_spins = .ok g ∧
      ls_get_group_size g = 1 ∧
      ls_group_get_number_spins g =
        ((number_spins % 2 ^ 16 : Nat) : Int)) ∧
    (0 < number_spins → number_spins < 2 ^ 16 → ∃ g,
      ls_create_trivial_group net eig number_spins = .ok g ∧
      ls_get_group_size g = 1 ∧
      ls_group_get_number_spins g = (number_spins : Int)) := by
  refine ⟨?_, ?_, ?_⟩
  · unfold ls_create_trivial_group
    split_ifs with h <;> simp [h]
  · intro h
    refine ⟨[from_spec net eig (make_identity_spec number_spins)], ?_, rfl, ?_⟩
    · unfold ls_create_trivial_group
      rw [if_neg (by omega)]
    · simp [ls_group_get_number_spins, from_spec, make_identity_spec]
  · intro h h16
    refine ⟨[from_spec net eig (make_identity_spec number_spins)], ?_, rfl, ?_⟩
    · unfold ls_create_trivial_group
      rw [if_neg (by omega)]
    · simp [ls_group_get_number_spins, from_spec, make_identity_spec]
      omega

/-- Witness for the amended C8: `ls_create_trivial_group 0` fails with
`InvalidNumberSpins` and `ls_create_trivial_group 4` succeeds with group
size 1 and 4 spins, for a concrete trivial network compiler and
eigenvalue computation. -/
theorem C8_create_trivial_group_witness :
    (ls_create_trivial_group (fun _ => ⟨[], [], 0⟩) (fun _ _ => (1, 0)) 0 =
      .error .InvalidNumberSpins) ∧
    ∃ g, ls_create_trivial_group (fun _ => ⟨[], [], 0⟩)
        (fun _ _ => (1, 0)) 4 = .ok g ∧
      ls_get_group_size g = 1 ∧ ls_group_get_number_spins g = (4 : Int) := by
  constructor
  · exact (C8_create_trivial_group (fun _ => ⟨[], [], 0⟩)
      (fun _ _ => (1, 0)) 0).1.mpr rfl
  · exact (C8_create_trivial_group (fun _ => ⟨[], [], 0⟩)
      (fun _ _ => (1, 0)) 4).2.2 (by omega) (by norm_num)

/-- Counterexample to C8 as stated: at `number_spins = 70000` the call
succeeds, but the `uint16_t` truncation of the identity loop bound makes
the group report `70000 mod 2^16 = 4464` spins, not 70000. -/
theorem C8_create_trivial_group_counterexample :
    ∃ g, ls_create_trivial_group (fun _ => ⟨[], [], 0⟩)
        (fun _ _ => (1, 0)) 70000 = .ok g ∧
      ls_group_get_number_spins g = (4464 : Int) ∧
      (4464 : Int) ≠ (70000 : Int) := by
  refine ⟨[from_spec (fun _ => ⟨[], [], 0⟩) (fun _ _ => (1, 0))
    (make_identity_spec 70000)], ?_, ?_, by decide⟩
  · unfold ls_create_trivial_group
    rw [if_neg (by omega)]
  · simp only [ls_group_get_number_spins, from_spec, make_identity_spec,
      List.length_range]
    norm_num

/- ### Claim C9: `ls_group_dump_symmetry_info` -/

lemma set_take_of_le {α : Type} (l : List α) (i n : Nat) (v : α)
    (h : n ≤ i) : (l.set i v).take n = l.take n := by
  apply List.ext_getElem?
  intro m
  rw [List.getElem?_take, List.getElem?_take]
  split_ifs with hm
  · exact List.getElem?_set_ne (by omega)
  · rfl

lemma set_drop_of_lt {α : Type} (l : List α) (i n : Nat) (v : α)
    (h : i < n) : (l.set i v).drop n = l.drop n := by
  apply List.ext_getElem?
  intro m
  rw [List.getElem?_drop, List.getElem?_drop]
  exact List.getElem?_set_ne (by omega)

/-- The dump loop writes the eigenvalues, in group order, starting at
offset `i` of the eigenvalue buffer, leaving the rest unchanged. -/
lemma dump_loop_eigenvalues (stride : Nat) :
    ∀ (syms : List ls_symmetry) (i : Nat) (bufs : dump_buffers_t),
      i + syms.length ≤ bufs.eigenvalues.length →
      (dump_loop stride syms i bufs).eigenvalues =
        bufs.eigenvalues.take i ++ syms.map (fun s => s.eigenvalue) ++
          bufs.eigenvalues.drop (i + syms.length) := by
  intro syms
  induction syms with
  | nil =>
    intro i bufs h
    simp [dump_loop, List.take_append_drop]
  | cons s rest ih =>
    intro i bufs h
    have hi : i < bufs.eigenvalues.length := by
      simp only [List.length_cons] at h; omega
    rw [dump_loop]
    rw [ih (i + 1) _ (by simp only [List.length_set, List.length_cons] at h ⊢; omega)]
    simp only [List.take_succ, set_take_of_le _ _ _ _ (le_refl i),
      set_drop_of_lt _ _ _ _ (by omega : i < i + 1 + rest.length)]
    rw [List.getElem?_set_self' ]
    rw [List.getElem?_eq_getElem hi]
    have harith : i + 1 + rest.length = i + (rest.length + 1) := by omega
    simp [harith, List.append_assoc]

/-- **C9.**  For every group whose elements agree on the network depth
and whose eigenvalue buffer is large enough: on the empty group,
`ls_group_dump_symmetry_info` returns `SystemError` and leaves all three
output buffers unmodified; on a non-empty group it returns `Success`
after writing each element's eigenvalue, in group order, into the
eigenvalue buffer. -/
theorem C9_dump_symmetry_info (group : List ls_symmetry)
    (bufs : dump_buffers_t)
    (hlen : group.length ≤ bufs.eigenvalues.length)
    (hdep : ∀ s ∈ group, ∀ t ∈ group, s.network.depth = t.network.depth) :
    (group = [] →
      ls_group_dump_symmetry_info group bufs = some (.SystemError, bufs)) ∧
    (group ≠ [] → ∃ bufs',
      ls_group_dump_symmetry_info group bufs = some (.Success, bufs') ∧
      bufs'.eigenvalues = group.map (fun s => s.eigenvalue) ++
        bufs.eigenvalues.drop group.length) := by
  constructor
  · rintro rfl
    rfl
  · intro hne
    obtain ⟨s, rest, rfl⟩ := List.exists_cons_of_ne_nil hne
    have hall : (rest.all fun t => t.network.depth = s.network.depth) = true := by
      rw [List.all_eq_true]
      intro t ht
      simpa using hdep t (List.mem_cons_of_mem _ ht) s (List.mem_cons_self _ _)
    have hg : ls_group_get_network_depth (s :: rest) =
        some (s.network.depth : Int) := by
      simp [ls_group_get_network_depth, hall]
    refine ⟨dump_loop (ls_get_group_size (s :: rest)) (s :: rest) 0
      ⟨bufs.masks, write_shifts s bufs.shifts, bufs.eigenvalues⟩, ?_, ?_⟩
    · simp only [ls_group_dump_symmetry_info, hg]
    · rw [dump_loop_eigenvalues _ _ 0 _ (by simpa using hlen)]
      simp

/-- Witness for C9 at concrete inputs: the empty group leaves the buffers
unchanged with a `SystemError`; a one-element group succeeds and writes
its eigenvalue at position 0. -/
theorem C9_dump_symmetry_info_witness :
    (ls_group_dump_symmetry_info [] ⟨[7], [8], [(5, 5)]⟩ =
      some (.SystemError, ⟨[7], [8], [(5, 5)]⟩)) ∧
    ∃ bufs', ls_group_dump_symmetry_info [⟨2, ⟨[3], [1], 1⟩, 0, 1, (1, 0)⟩]
        ⟨[7], [8], [(5, 5)]⟩ = some (.Success, bufs') ∧
      bufs'.eigenvalues = [(1, 0)] := by
  constructor
  · exact (C9_dump_symmetry_info [] ⟨[7], [8], [(5, 5)]⟩ (by simp)
      (by simp)).1 rfl
  · obtain ⟨bufs', h1, h2⟩ :=
      (C9_dump_symmetry_info [⟨2, ⟨[3], [1], 1⟩, 0, 1, (1, 0)⟩]
        ⟨[7], [8], [(5, 5)]⟩ (by simp) (by simp)).2 (by simp)
    exact ⟨bufs', h1, by simpa using h2⟩

/- ### The representative finder (`state_info.cpp`) -/

/-- Modelled from the spec: applying a compiled permutation network to a
bit pattern permutes its bits; bit `i` of the result is bit `p[i]` of the
input. -/
def applyPerm (p : List Nat) (x : Nat) : Nat :=
  (List.range p.length).foldr
    (fun i acc => 2 * acc + (if x.testBit (p.getD i 0) then 1 else 0)) 0

/-- `get_flip_mask_64`: ones on the lowest `n` bits, avoiding the shift
by 64 when `n = 0`. -/
def get_flip_mask_64 (n : Nat) : Nat :=
  if n = 0 then 0 else (2 ^ 64 - 1) >>> (64 - n)

/-- `get_flip_mask_512`: ones on the lowest `n` bits.  The C++ builds this
value as an array of eight 64-bit limbs (full limbs, then a partial
`get_flip_mask_64` limb, then zero limbs); with 512-bit patterns modelled
as numbers the resulting value is `2 ^ n - 1` for `n ≤ 512`. -/
def get_flip_mask_512 (n : Nat) : Nat := 2 ^ n - 1

/-- `basis_base_t`: the basis header consumed by the representative
finder. -/
structure basis_base_t where
  number_spins : Nat
  has_symmetries : Bool
  spin_inversion : Int
deriving DecidableEq, Repr

/-- `big_symmetry_t`: one compiled symmetry of the scalar (512-bit) path:
the permutation its network applies and its eigenvalue. -/
structure big_symmetry_t where
  perm : List Nat
  eigRe : ℚ
  eigIm : ℚ
deriving DecidableEq, Repr

/-- `big_basis_t`: the flat sequence of compiled symmetries used by the
scalar path. -/
structure big_basis_t where
  symmetries : List big_symmetry_t
deriving DecidableEq, Repr

/-- `batched_symmetry_t`: a batch of 8 compiled symmetries of the SIMD
path: one lane permutation and one eigenvalue per lane. -/
structure batched_symmetry_t where
  perms : List (List Nat)
  eigenvalues_real : List ℚ
  eigenvalues_imag : List ℚ
deriving DecidableEq, Repr

/-- `small_basis_t`: full batches of 8 symmetries plus an optional
remainder batch with `number_other_symmetries < 8` valid lanes. -/
structure small_basis_t where
  batched_symmetries : List batched_symmetry_t
  other_symmetries : Option batched_symmetry_t
  number_other_symmetries : Nat
deriving DecidableEq, Repr

/-- `batch_size` from the kernels: 8 lanes. -/
def batch_size : Nat := 8

/-- Lane `i`'s permutation of a batch. -/
def lanePerm (b : batched_symmetry_t) (i : Fin 8) : List Nat :=
  b.perms.getD i []

/-- Lane `i`'s eigenvalue real part of a batch. -/
def laneRe (b : batched_symmetry_t) (i : Fin 8) : ℚ :=
  b.eigenvalues_real.getD i 0

/-- Lane `i`'s eigenvalue imaginary part of a batch. -/
def laneIm (b : batched_symmetry_t) (i : Fin 8) : ℚ :=
  b.eigenvalues_imag.getD i 0

/-- One element of the extended orbit scan: the permuted (and possibly
flipped) bit pattern together with the (sign-adjusted) eigenvalue that
accompanies it. -/
structure orbit_elem_t where
  val : Nat
  re : ℚ
  im : ℚ
deriving DecidableEq, Repr

/-- The scalar accumulator of the representative search: running minimum,
its eigenvalue, and the stabilizer sum. -/
structure scalar_acc_t where
  r : Nat
  eRe : ℚ
  eIm : ℚ
  n : ℚ
deriving DecidableEq, Repr

/-- Initial scalar accumulator: `r = bits`, eigenvalue `1 + 0i`, sum 0. -/
def scalar_init (bits : Nat) : scalar_acc_t := ⟨bits, 1, 0, 0⟩

/-- The comparison step shared by the scalar loop of `get_state_info`
(512-bit path): strictly smaller values replace the running minimum and
its eigenvalue; otherwise values equal to the original pattern add their
real part to the stabilizer sum. -/
def scalar_step (bits : Nat) (a : scalar_acc_t) (el : orbit_elem_t) :
    scalar_acc_t :=
  if el.val < a.r then ⟨el.val, el.re, el.im, a.n⟩
  else if el.val = bits then ⟨a.r, a.eRe, a.eIm, a.n + el.re⟩
  else a

/-- Folding the scalar step over a list of orbit elements. -/
def scalar_fold (bits : Nat) (els : List orbit_elem_t) : scalar_acc_t :=
  els.foldl (scalar_step bits) (scalar_init bits)

/-- The orbit elements contributed by one symmetry: the permuted pattern
with its eigenvalue and, when spin inversion is enabled, the flipped
pattern with the sign-adjusted eigenvalue. -/
def sym_elems (inv : Int) (coeff : ℚ) (mask bits : Nat)
    (s : big_symmetry_t) : List orbit_elem_t :=
  let v := applyPerm s.perm bits
  if inv ≠ 0 then
    [⟨v, s.eigRe, s.eigIm⟩, ⟨v ^^^ mask, coeff * s.eigRe, coeff * s.eigIm⟩]
  else [⟨v, s.eigRe, s.eigIm⟩]

/-- All extended-orbit elements of a symmetry list, in scan order. -/
def all_elems (inv : Int) (coeff : ℚ) (mask bits : Nat)
    (syms : List big_symmetry_t) : List orbit_elem_t :=
  syms.flatMap (sym_elems inv coeff mask bits)

/-- The loop body of the scalar `get_state_info` (one symmetry: spatial
comparison, then the flipped comparison when spin inversion is enabled),
faithful to the `if / else if` structure of the C++ loop. -/
def big_step (inv : Int) (coeff : ℚ) (mask bits : Nat) (a : scalar_acc_t)
    (s : big_symmetry_t) : scalar_acc_t :=
  let buffer := applyPerm s.perm bits
  let a1 :=
    if buffer < a.r then ⟨buffer, s.eigRe, s.eigIm, a.n⟩
    else if buffer = bits then ⟨a.r, a.eRe, a.eIm, a.n + s.eigRe⟩
    else a
  if inv ≠ 0 then
    let buffer2 := buffer ^^^ mask
    if buffer2 < a1.r then ⟨buffer2, coeff * s.eigRe, coeff * s.eigIm, a1.n⟩
    else if buffer2 = bits then ⟨a1.r, a1.eRe, a1.eIm, a1.n + coeff * s.eigRe⟩
    else a1
  else a1

/-- The numerical-noise guard: sums within `1e-5` of zero become zero. -/
def snap (x : ℚ) : ℚ := if |x| ≤ 1 / 100000 then 0 else x

/-- The scalar (512-bit) `get_state_info`, before the final square root:
returns the representative, the character, and the snapped stabilizer sum
divided by the effective group size (whose square root is the returned
norm).  `none` models the fatal `n >= 0` assertion failure.  The
`has_symmetries` shortcut returns norm 1 directly. -/
def get_state_info_big_raw (hdr : basis_base_t) (body : big_basis_t)
    (bits : Nat) : Option (Nat × ℚ × ℚ × ℚ) :=
  if ¬hdr.has_symmetries then some (bits, 1, 0, 1)
  else
    let mask := get_flip_mask_512 hdr.number_spins
    let coeff : ℚ := (hdr.spin_inversion : ℚ)
    let a := body.symmetries.foldl
      (big_step hdr.spin_inversion coeff mask bits) (scalar_init bits)
    let n := snap a.n
    if n < 0 then none
    else
      let group_size := ((if hdr.spin_inversion ≠ 0 then 1 else 0) + 1) *
        body.symmetries.length
      some (a.r, a.eRe, a.eIm, n / (group_size : ℚ))

/-- The scalar (512-bit) `get_state_info` with the final `sqrt` applied
to the norm component. -/
noncomputable def get_state_info_big (hdr : basis_base_t)
    (body : big_basis_t) (bits : Nat) : Option (Nat × ℚ × ℚ × ℝ) :=
  (get_state_info_big_raw hdr body bits).map fun t =>
    (t.1, t.2.1, t.2.2.1, Real.sqrt (t.2.2.2 : ℝ))

/-- The 8-lane accumulator `batch_acc_64_arch_t`: broadcast original
pattern, per-lane running minimum with its eigenvalue, and per-lane
stabilizer partial sums. -/
structure batch_acc_64_t where
  original : Fin 8 → Nat
  r : Fin 8 → Nat
  n : Fin 8 → ℚ
  e_re : Fin 8 → ℚ
  e_im : Fin 8 → ℚ

/-- The accumulator constructor: every lane holds the original pattern,
eigenvalue `1 + 0i` and sum 0. -/
def batch_acc_init (bits : Nat) : batch_acc_64_t :=
  ⟨fun _ => bits, fun _ => bits, fun _ => 0, fun _ => 1, fun _ => 0⟩

/-- `batch_acc_64_arch_t::update`: lanes whose value is strictly smaller
than the running minimum replace it (and its eigenvalue); lanes equal to
the original pattern add their real part to the lane's sum. -/
def batch_acc_update (a : batch_acc_64_t) (x : Fin 8 → Nat)
    (re im : Fin 8 → ℚ) : batch_acc_64_t :=
  { a with
    r := fun i => if x i < a.r i then x i else a.r i
    e_re := fun i => if x i < a.r i then re i else a.e_re i
    e_im := fun i => if x i < a.r i then im i else a.e_im i
    n := fun i => if x i = a.original i then a.n i + re i else a.n i }

/-- `batch_acc_64_arch_t::update_first_few`: as `update`, but only the
lanes below `count` participate. -/
def batch_acc_update_first_few (a : batch_acc_64_t) (x : Fin 8 → Nat)
    (re im : Fin 8 → ℚ) (count : Nat) : batch_acc_64_t :=
  { a with
    r := fun i => if x i < a.r i ∧ i.val < count then x i else a.r i
    e_re := fun i => if x i < a.r i ∧ i.val < count then re i else a.e_re i
    e_im := fun i => if x i < a.r i ∧ i.val < count then im i else a.e_im i
    n := fun i => if x i = a.original i ∧ i.val < count then a.n i + re i
      else a.n i }

/-- The binary select of the reduction tree: the strictly smaller value
wins, ties keep the second (high) operand — exactly
`select(low < high, low, high)` acting on the value and both eigenvalue
components with the same comparison mask. -/
def sel64 (a b : Nat × ℚ × ℚ) : Nat × ℚ × ℚ := if a.1 < b.1 then a else b

/-- `batch_acc_64_arch_t::reduce`: the lane-halving reduction tree
(lanes 0–3 against 4–7, then pairs, then the final two) for the minimum
and its eigenvalue, and the horizontal sum of the per-lane stabilizer
sums (exact rational addition is associative, so the sum is written as a
plain chain). -/
def batch_acc_reduce (a : batch_acc_64_t) : Nat × ℚ × ℚ × ℚ :=
  let t : Fin 8 → Nat × ℚ × ℚ := fun i => (a.r i, a.e_re i, a.e_im i)
  let m0 := sel64 (t 0) (t 4)
  let m1 := sel64 (t 1) (t 5)
  let m2 := sel64 (t 2) (t 6)
  let m3 := sel64 (t 3) (t 7)
  let k0 := sel64 m0 m2
  let k1 := sel64 m1 m3
  let f := sel64 k0 k1
  (f.1, f.2.1, f.2.2,
    a.n 0 + a.n 1 + a.n 2 + a.n 3 + a.n 4 + a.n 5 + a.n 6 + a.n 7)

/-- Applying a batch's 8 lane networks to the broadcast pattern. -/
def batch_apply (bits : Nat) (b : batched_symmetry_t) : Fin 8 → Nat :=
  fun i => applyPerm (lanePerm b i) bits

/-- The SIMD loop body for one full batch of `get_state_info`: the
spatial update, then — when spin inversion is enabled — the flipped
update with the sign-adjusted eigenvalues (the multiplication by the
coefficient is skipped when it is `+1`). -/
def small_batch_step (inv : Int) (coeff : ℚ) (mask bits : Nat)
    (a : batch_acc_64_t) (b : batched_symmetry_t) : batch_acc_64_t :=
  let x := batch_apply bits b
  let a1 := batch_acc_update a x (laneRe b) (laneIm b)
  if inv ≠ 0 then
    batch_acc_update a1 (fun i => x i ^^^ mask)
      (fun i => if inv ≠ 1 then coeff * laneRe b i else laneRe b i)
      (fun i => if inv ≠ 1 then coeff * laneIm b i else laneIm b i)
  else a1

/-- The SIMD loop body for the remainder batch of `get_state_info`. -/
def small_other_step (inv : Int) (coeff : ℚ) (mask bits count : Nat)
    (a : batch_acc_64_t) (b : batched_symmetry_t) : batch_acc_64_t :=
  let x := batch_apply bits b
  let a1 := batch_acc_update_first_few a x (laneRe b) (laneIm b) count
  if inv ≠ 0 then
    batch_acc_update_first_few a1 (fun i => x i ^^^ mask)
      (fun i => if inv ≠ 1 then coeff * laneRe b i else laneRe b i)
      (fun i => if inv ≠ 1 then coeff * laneIm b i else laneIm b i) count
  else a1

/-- The full batched scan of `get_state_info` (64-bit path): all full
batches, then the remainder batch if present. -/
def small_process (hdr : basis_base_t) (body : small_basis_t)
    (bits : Nat) : batch_acc_64_t :=
  let mask := get_flip_mask_64 hdr.number_spins
  let coeff : ℚ := (hdr.spin_inversion : ℚ)
  let a := body.batched_symmetries.foldl
    (small_batch_step hdr.spin_inversion coeff mask bits)
    (batch_acc_init bits)
  match body.other_symmetries with
  | none => a
  | some b => small_other_step hdr.spin_inversion coeff mask bits
      body.number_other_symmetries a b

/-- The effective group size of the 64-bit path:
`(spin_inversion ≠ 0 ? 2 : 1) * (8 * #batches + #other)`. -/
def small_group_size (hdr : basis_base_t) (body : small_basis_t) : Nat :=
  ((if hdr.spin_inversion ≠ 0 then 1 else 0) + 1) *
    (batch_size * body.batched_symmetries.length +
      body.number_other_symmetries)

/-- The SIMD (64-bit) `get_state_info`, before the final square root:
representative, character, and the snapped stabilizer sum divided by the
effective group size.  `none` models the fatal `n >= 0` assertion. -/
def get_state_info_small_raw (hdr : basis_base_t) (body : small_basis_t)
    (bits : Nat) : Option (Nat × ℚ × ℚ × ℚ) :=
  if ¬hdr.has_symmetries then some (bits, 1, 0, 1)
  else
    let red := batch_acc_reduce (small_process hdr body bits)
    let n := snap red.2.2.2
    if n < 0 then none
    else some (red.1, red.2.1, red.2.2.1, n / (small_group_size hdr body : ℚ))

/-- The SIMD (64-bit) `get_state_info` with the final `sqrt` applied to
the norm component. -/
noncomputable def get_state_info_small (hdr : basis_base_t)
    (body : small_basis_t) (bits : Nat) : Option (Nat × ℚ × ℚ × ℝ) :=
  (get_state_info_small_raw hdr body bits).map fun t =>
    (t.1, t.2.1, t.2.2.1, Real.sqrt (t.2.2.2 : ℝ))

/-- The norm-only scan of `is_representative` over the full batches.  In
the norm-only variant the accumulator's `r` field is never written, so
every lane still holds the original pattern; the `x < r` check therefore
compares against `bits`.  `none` signals that a strictly smaller orbit
element was seen (the C++ early `return false`). -/
def is_rep_go (inv : Int) (coeff : ℚ) (mask bits : Nat) :
    List batched_symmetry_t → (Fin 8 → ℚ) → Option (Fin 8 → ℚ)
  | [], nv => some nv
  | b :: rest, nv =>
    let x := batch_apply bits b
    if ∃ i : Fin 8, x i < bits then none
    else
      let nv1 : Fin 8 → ℚ :=
        fun i => if x i = bits then nv i + laneRe b i else nv i
      if inv ≠ 0 then
        if ∃ i : Fin 8, x i ^^^ mask < bits then none
        else is_rep_go inv coeff mask bits rest
          (fun i => if x i ^^^ mask = bits then nv1 i + coeff * laneRe b i
            else nv1 i)
      else is_rep_go inv coeff mask bits rest nv1

/-- The norm-only scan of `is_representative` over the remainder batch
(only lanes below `count` participate). -/
def is_rep_other (inv : Int) (coeff : ℚ) (mask bits count : Nat)
    (nv : Fin 8 → ℚ) (b : batched_symmetry_t) : Option (Fin 8 → ℚ) :=
  let x := batch_apply bits b
  if ∃ i : Fin 8, x i < bits ∧ i.val < count then none
  else
    let nv1 : Fin 8 → ℚ :=
      fun i => if x i = bits ∧ i.val < count then nv i + laneRe b i else nv i
    if inv ≠ 0 then
      if ∃ i : Fin 8, x i ^^^ mask < bits ∧ i.val < count then none
      else some (fun i => if x i ^^^ mask = bits ∧ i.val < count then
        nv1 i + coeff * laneRe b i else nv1 i)
    else some nv1

/-- `is_representative` (64-bit path): `true` without symmetries;
otherwise scans all batches, returning `false` as soon as a strictly
smaller extended-orbit element is found, and finally tests whether the
snapped stabilizer sum is strictly positive.  `none` models the fatal
`n >= 0` assertion. -/
def is_representative_small (hdr : basis_base_t) (body : small_basis_t)
    (bits : Nat) : Option Bool :=
  if ¬hdr.has_symmetries then some true
  else
    let mask := get_flip_mask_64 hdr.number_spins
    let coeff : ℚ := (hdr.spin_inversion : ℚ)
    match is_rep_go hdr.spin_inversion coeff mask bits
      body.batched_symmetries (fun _ => 0) with
    | none => some false
    | some nv =>
      match (match body.other_symmetries with
        | none => some nv
        | some b => is_rep_other hdr.spin_inversion coeff mask bits
            body.number_other_symmetries nv b) with
      | none => some false
      | some nv2 =>
        let n := snap (nv2 0 + nv2 1 + nv2 2 + nv2 3 + nv2 4 + nv2 5 +
          nv2 6 + nv2 7)
        if n < 0 then none else some (decide (0 < n))

/- ### Characterization of the scalar scan -/

/-- The claim-side stabilizer sum: the sum of the (sign-adjusted)
eigenvalue real parts over the extended-orbit elements that equal the
original pattern. -/
def stab_sum (bits : Nat) (els : List orbit_elem_t) : ℚ :=
  (els.map fun el => if el.val = bits then el.re else 0).sum

lemma scalar_step_r_le (bits : Nat) (a : scalar_acc_t)
    (el : orbit_elem_t) : (scalar_step bits a el).r ≤ a.r := by
  unfold scalar_step
  split_ifs <;> (try dsimp only) <;> omega

lemma scalar_step_r_le_val (bits : Nat) (a : scalar_acc_t)
    (el : orbit_elem_t) : (scalar_step bits a el).r ≤ el.val := by
  unfold scalar_step
  split_ifs with h1 h2 <;> (try dsimp only) <;> omega

lemma scalar_step_r_of_lt (bits : Nat) (a : scalar_acc_t)
    (el : orbit_elem_t) (h : el.val < a.r) :
    (scalar_step bits a el).r = el.val := by
  simp [scalar_step, h]

lemma scalar_step_r_of_not_lt (bits : Nat) (a : scalar_acc_t)
    (el : orbit_elem_t) (h : ¬el.val < a.r) :
    (scalar_step bits a el).r = a.r := by
  unfold scalar_step
  rw [if_neg h]
  split_ifs <;> rfl

lemma scalar_foldl_r_le (bits : Nat) (els : List orbit_elem_t) :
    ∀ a : scalar_acc_t, (els.foldl (scalar_step bits) a).r ≤ a.r := by
  induction els with
  | nil => intro a; simp
  | cons e rest ih =>
    intro a
    calc (List.foldl (scalar_step bits) (scalar_step bits a e) rest).r
        ≤ (scalar_step bits a e).r := ih _
      _ ≤ a.r := scalar_step_r_le bits a e

lemma scalar_foldl_r_le_val (bits : Nat) (els : List orbit_elem_t) :
    ∀ (a : scalar_acc_t) (el : orbit_elem_t), el ∈ els →
      (els.foldl (scalar_step bits) a).r ≤ el.val := by
  induction els with
  | nil => intro a el h; simp at h
  | cons e rest ih =>
    intro a el h
    rcases List.mem_cons.mp h with rfl | h'
    · calc (List.foldl (scalar_step bits) (scalar_step bits a el) rest).r
          ≤ (scalar_step bits a el).r := scalar_foldl_r_le bits rest _
        _ ≤ el.val := scalar_step_r_le_val bits a el
    · exact ih _ el h'

lemma scalar_foldl_r_mem (bits : Nat) (els : List orbit_elem_t) :
    ∀ a : scalar_acc_t, (els.foldl (scalar_step bits) a).r = a.r ∨
      ∃ el ∈ els, el.val = (els.foldl (scalar_step bits) a).r := by
  induction els with
  | nil => intro a; exact Or.inl rfl
  | cons e rest ih =>
    intro a
    rw [List.foldl_cons]
    rcases ih (scalar_step bits a e) with h | ⟨el, hel, hv⟩
    · by_cases h1 : e.val < a.r
      · exact Or.inr ⟨e, List.mem_cons_self _ _,
          by rw [h, scalar_step_r_of_lt bits a e h1]⟩
      · exact Or.inl (by rw [h, scalar_step_r_of_not_lt bits a e h1])
    · exact Or.inr ⟨el, List.mem_cons_of_mem _ hel, hv⟩

/-- The running minimum only decreases, so a step never raises it above
the original pattern. -/
lemma scalar_step_r_le_bits (bits : Nat) (a : scalar_acc_t)
    (el : orbit_elem_t) (h : a.r ≤ bits) :
    (scalar_step bits a el).r ≤ bits :=
  le_trans (scalar_step_r_le bits a el) h

/-- The stabilizer-sum component of the scalar scan: starting from any
accumulator whose running minimum is at most the original pattern, the
scan adds exactly the claim-side stabilizer sum. -/
lemma scalar_foldl_n (bits : Nat) (els : List orbit_elem_t) :
    ∀ a : scalar_acc_t, a.r ≤ bits →
      (els.foldl (scalar_step bits) a).n = a.n + stab_sum bits els := by
  induction els with
  | nil => intro a _; simp [stab_sum]
  | cons e rest ih =>
    intro a ha
    have hstep := ih (scalar_step bits a e) (scalar_step_r_le_bits bits a e ha)
    rw [List.foldl_cons, hstep]
    unfold scalar_step stab_sum
    split_ifs with h1 h2
    · have : e.val ≠ bits := by omega
      simp [this, stab_sum]
    · simp [h2, stab_sum]
      ring
    · simp [h1, h2, stab_sum]

/-- The invariant tying the character to the running minimum: while the
minimum is still the original pattern the character is `1 + 0i`, and once
it is strictly smaller the pair (minimum, character) is realized by some
scanned element of `S`. -/
def CharInv (bits : Nat) (S : List orbit_elem_t) (a : scalar_acc_t) : Prop :=
  a.r ≤ bits ∧ (a.r = bits → a.eRe = 1 ∧ a.eIm = 0) ∧
  (a.r < bits → ∃ el ∈ S, el.val = a.r ∧ el.re = a.eRe ∧ el.im = a.eIm)

lemma CharInv.init_state (bits : Nat) (S : List orbit_elem_t) :
    CharInv bits S (scalar_init bits) := by
  refine ⟨le_refl _, fun _ => ⟨rfl, rfl⟩, fun h => absurd h (by simp [scalar_init])⟩

lemma CharInv.step {bits : Nat} {S : List orbit_elem_t} {a : scalar_acc_t}
    {el : orbit_elem_t} (hinv : CharInv bits S a) (hel : el ∈ S) :
    CharInv bits S (scalar_step bits a el) := by
  obtain ⟨hle, heq, hlt⟩ := hinv
  unfold scalar_step
  split_ifs with h1 h2
  · refine ⟨by simp; omega, ?_, ?_⟩
    · intro h
      simp at h
      omega
    · intro _
      exact ⟨el, hel, rfl, rfl, rfl⟩
  · exact ⟨hle, heq, hlt⟩
  · exact ⟨hle, heq, hlt⟩

lemma CharInv.fold {bits : Nat} {S : List orbit_elem_t}
    (els : List orbit_elem_t) :
    ∀ a : scalar_acc_t, CharInv bits S a → (∀ el ∈ els, el ∈ S) →
      CharInv bits S (els.foldl (scalar_step bits) a) := by
  induction els with
  | nil => intro a h _; exact h
  | cons e rest ih =>
    intro a h hsub
    exact ih _ (h.step (hsub e (List.mem_cons_self _ _)))
      fun el hel => hsub el (List.mem_cons_of_mem _ hel)

/-- One symmetry's step of the scalar loop is the element-wise scan of
its orbit elements. -/
lemma big_step_eq_foldl (inv : Int) (coeff : ℚ) (mask bits : Nat)
    (a : scalar_acc_t) (s : big_symmetry_t) :
    big_step inv coeff mask bits a s =
      (sym_elems inv coeff mask bits s).foldl (scalar_step bits) a := by
  unfold big_step sym_elems scalar_step
  by_cases h : inv ≠ 0 <;> simp [h]

/-- The scalar loop over a symmetry list is the element-wise scan of all
its orbit elements. -/
lemma big_foldl_eq (inv : Int) (coeff : ℚ) (mask bits : Nat)
    (syms : List big_symmetry_t) :
    ∀ a : scalar_acc_t,
      syms.foldl (big_step inv coeff mask bits) a =
        (all_elems inv coeff mask bits syms).foldl (scalar_step bits) a := by
  induction syms with
  | nil => intro a; simp [all_elems]
  | cons s rest ih =>
    intro a
    simp only [List.foldl_cons, all_elems, List.flatMap_cons,
      List.foldl_append]
    rw [big_step_eq_foldl, ih]
    rfl

/- ### Lane decomposition of the SIMD scan -/

/-- The scalar state held by one lane of the 8-lane accumulator. -/
def laneState (a : batch_acc_64_t) (i : Fin 8) : scalar_acc_t :=
  ⟨a.r i, a.e_re i, a.e_im i, a.n i⟩

/-- The compiled symmetry held by one lane of a batch. -/
def lane_sym (b : batched_symmetry_t) (i : Fin 8) : big_symmetry_t :=
  ⟨lanePerm b i, laneRe b i, laneIm b i⟩

/-- Well-formedness of the accumulator during the scan: every lane's
`original` is the scanned pattern and every lane's running minimum is at
most that pattern. -/
def BatchOk (bits : Nat) (a : batch_acc_64_t) : Prop :=
  ∀ i, a.original i = bits ∧ a.r i ≤ bits

lemma BatchOk.init_acc (bits : Nat) : BatchOk bits (batch_acc_init bits) :=
  fun _ => ⟨rfl, le_refl _⟩

lemma BatchOk.update {bits : Nat} {a : batch_acc_64_t}
    (h : BatchOk bits a) (x : Fin 8 → Nat) (re im : Fin 8 → ℚ) :
    BatchOk bits (batch_acc_update a x re im) := by
  intro i
  obtain ⟨h1, h2⟩ := h i
  refine ⟨h1, ?_⟩
  unfold batch_acc_update
  dsimp only
  split_ifs with hs
  · omega
  · exact h2

lemma BatchOk.update_first_few {bits : Nat} {a : batch_acc_64_t}
    (h : BatchOk bits a) (x : Fin 8 → Nat) (re im : Fin 8 → ℚ)
    (count : Nat) :
    BatchOk bits (batch_acc_update_first_few a x re im count) := by
  intro i
  obtain ⟨h1, h2⟩ := h i
  refine ⟨h1, ?_⟩
  unfold batch_acc_update_first_few
  dsimp only
  split_ifs with hs
  · omega
  · exact h2

/-- Per-lane view of `update`: a vector update acts on each lane exactly
like the scalar comparison step (the `n` update condition `x = original`
coincides with the scalar `else if x = bits` branch because the running
minimum never exceeds `bits`). -/
lemma batch_acc_update_lane {bits : Nat} {a : batch_acc_64_t}
    (x : Fin 8 → Nat) (re im : Fin 8 → ℚ) (i : Fin 8)
    (hok : BatchOk bits a) :
    laneState (batch_acc_update a x re im) i =
      scalar_step bits (laneState a i) ⟨x i, re i, im i⟩ := by
  obtain ⟨horig, hr⟩ := hok i
  unfold laneState batch_acc_update scalar_step
  dsimp only
  rw [horig]
  by_cases h1 : x i < a.r i
  · have hne : ¬x i = bits := by omega
    simp [h1, hne]
  · by_cases h2 : x i = bits
    · simp [h1, h2, Nat.not_lt.mpr hr]
    · simp [h1, h2]

/-- Per-lane view of `update_first_few` on an included lane. -/
lemma batch_acc_update_first_few_lane_lt {bits : Nat}
    {a : batch_acc_64_t} (x : Fin 8 → Nat) (re im : Fin 8 → ℚ)
    {count : Nat} (i : Fin 8) (hok : BatchOk bits a)
    (hcnt : i.val < count) :
    laneState (batch_acc_update_first_few a x re im count) i =
      scalar_step bits (laneState a i) ⟨x i, re i, im i⟩ := by
  obtain ⟨horig, hr⟩ := hok i
  unfold laneState batch_acc_update_first_few scalar_step
  dsimp only
  rw [horig]
  by_cases h1 : x i < a.r i
  · have hne : ¬x i = bits := by omega
    simp [h1, hne, hcnt]
  · by_cases h2 : x i = bits
    · simp [h1, h2, hcnt, Nat.not_lt.mpr hr]
    · simp [h1, h2, hcnt]

/-- Per-lane view of `update_first_few` on an excluded lane: no change. -/
lemma batch_acc_update_first_few_lane_ge {a : batch_acc_64_t}
    (x : Fin 8 → Nat) (re im : Fin 8 → ℚ)
    {count : Nat} (i : Fin 8) (hcnt : ¬i.val < count) :
    laneState (batch_acc_update_first_few a x re im count) i =
      laneState a i := by
  unfold laneState batch_acc_update_first_few
  simp [hcnt]

/-- The sign-adjusted eigenvalue used on the flipped branch equals
`coeff * eig` whenever `coeff = 1` when the inversion sign is `+1` (the
C++ skips the multiplication by `+1`). -/
lemma flip_eig_eq (inv : Int) (coeff q : ℚ) (hco : inv = 1 → coeff = 1) :
    (if inv ≠ 1 then coeff * q else q) = coeff * q := by
  split_ifs with h
  · rfl
  · rw [hco (by omega), one_mul]

/-- Per-lane view of a full-batch step: lane `i` performs the scalar scan
of the lane symmetry's orbit elements. -/
lemma small_batch_step_lane (inv : Int) (coeff : ℚ) (mask bits : Nat)
    (hco : inv = 1 → coeff = 1) (a : batch_acc_64_t)
    (b : batched_symmetry_t) (i : Fin 8) (hok : BatchOk bits a) :
    laneState (small_batch_step inv coeff mask bits a b) i =
      (sym_elems inv coeff mask bits (lane_sym b i)).foldl
        (scalar_step bits) (laneState a i) := by
  unfold small_batch_step sym_elems
  by_cases hinv : inv ≠ 0
  · rw [if_pos hinv, if_pos hinv]
    simp only [List.foldl_cons, List.foldl_nil]
    rw [batch_acc_update_lane _ _ _ i (hok.update _ _ _)]
    rw [batch_acc_update_lane _ _ _ i hok]
    rw [flip_eig_eq inv coeff _ hco, flip_eig_eq inv coeff _ hco]
    rfl
  · rw [if_neg hinv, if_neg hinv]
    simp only [List.foldl_cons, List.foldl_nil]
    exact batch_acc_update_lane _ _ _ i hok

/-- Per-lane view of the remainder-batch step on an included lane. -/
lemma small_other_step_lane_lt (inv : Int) (coeff : ℚ)
    (mask bits count : Nat) (hco : inv = 1 → coeff = 1)
    (a : batch_acc_64_t) (b : batched_symmetry_t) (i : Fin 8)
    (hok : BatchOk bits a) (hcnt : i.val < count) :
    laneState (small_other_step inv coeff mask bits count a b) i =
      (sym_elems inv coeff mask bits (lane_sym b i)).foldl
        (scalar_step bits) (laneState a i) := by
  unfold small_other_step sym_elems
  by_cases hinv : inv ≠ 0
  · rw [if_pos hinv, if_pos hinv]
    simp only [List.foldl_cons, List.foldl_nil]
    rw [batch_acc_update_first_few_lane_lt _ _ _ i
      (hok.update_first_few _ _ _ _) hcnt]
    rw [batch_acc_update_first_few_lane_lt _ _ _ i hok hcnt]
    rw [flip_eig_eq inv coeff _ hco, flip_eig_eq inv coeff _ hco]
    rfl
  · rw [if_neg hinv, if_neg hinv]
    simp only [List.foldl_cons, List.foldl_nil]
    exact batch_acc_update_first_few_lane_lt _ _ _ i hok hcnt

/-- Per-lane view of the remainder-batch step on an excluded lane. -/
lemma small_other_step_lane_ge (inv : Int) (coeff : ℚ)
    (mask bits count : Nat) (a : batch_acc_64_t)
    (b : batched_symmetry_t) (i : Fin 8) (hcnt : ¬i.val < count) :
    laneState (small_other_step inv coeff mask bits count a b) i =
      laneState a i := by
  unfold small_other_step
  by_cases hinv : inv ≠ 0
  · rw [if_pos hinv]
    rw [batch_acc_update_first_few_lane_ge _ _ _ i hcnt,
      batch_acc_update_first_few_lane_ge _ _ _ i hcnt]
  · rw [if_neg hinv]
    exact batch_acc_update_first_few_lane_ge _ _ _ i hcnt

lemma small_batch_step_ok {bits : Nat} {a : batch_acc_64_t}
    (inv : Int) (coeff : ℚ) (mask : Nat) (b : batched_symmetry_t)
    (hok : BatchOk bits a) :
    BatchOk bits (small_batch_step inv coeff mask bits a b) := by
  unfold small_batch_step
  by_cases hinv : inv ≠ 0
  · rw [if_pos hinv]
    exact (hok.update _ _ _).update _ _ _
  · rw [if_neg hinv]
    exact hok.update _ _ _

lemma small_other_step_ok {bits : Nat} {a : batch_acc_64_t}
    (inv : Int) (coeff : ℚ) (mask count : Nat) (b : batched_symmetry_t)
    (hok : BatchOk bits a) :
    BatchOk bits (small_other_step inv coeff mask bits count a b) := by
  unfold small_other_step
  by_cases hinv : inv ≠ 0
  · rw [if_pos hinv]
    exact (hok.update_first_few _ _ _ _).update_first_few _ _ _ _
  · rw [if_neg hinv]
    exact hok.update_first_few _ _ _ _

/-- The symmetries scanned by lane `i`: its lane of every full batch,
plus its lane of the remainder batch when the lane is below the valid
count. -/
def lane_syms (body : small_basis_t) (i : Fin 8) : List big_symmetry_t :=
  (body.batched_symmetries.map fun b => lane_sym b i) ++
  (match body.other_symmetries with
   | none => []
   | some b =>
     if i.val < body.number_other_symmetries then [lane_sym b i] else [])

lemma laneState_init (bits : Nat) (i : Fin 8) :
    laneState (batch_acc_init bits) i = scalar_init bits := rfl

lemma small_batches_foldl_lane (inv : Int) (coeff : ℚ) (mask bits : Nat)
    (hco : inv = 1 → coeff = 1) (bs : List batched_symmetry_t) :
    ∀ a : batch_acc_64_t, BatchOk bits a → ∀ i : Fin 8,
      laneState (bs.foldl (small_batch_step inv coeff mask bits) a) i =
        (all_elems inv coeff mask bits (bs.map fun b => lane_sym b i)).foldl
          (scalar_step bits) (laneState a i) := by
  induction bs with
  | nil => intro a _ i; simp [all_elems]
  | cons b rest ih =>
    intro a hok i
    simp only [List.foldl_cons, List.map_cons, all_elems, List.flatMap_cons,
      List.foldl_append]
    rw [ih _ (small_batch_step_ok inv coeff mask b hok) i]
    rw [small_batch_step_lane inv coeff mask bits hco a b i hok]
    rfl

lemma small_batches_foldl_ok (inv : Int) (coeff : ℚ) (mask bits : Nat)
    (bs : List batched_symmetry_t) :
    ∀ a : batch_acc_64_t, BatchOk bits a →
      BatchOk bits (bs.foldl (small_batch_step inv coeff mask bits) a) := by
  induction bs with
  | nil => intro a h; exact h
  | cons b rest ih =>
    intro a hok
    exact ih _ (small_batch_step_ok inv coeff mask b hok)

/-- The central lane decomposition: after the whole SIMD scan, lane `i`
holds exactly the scalar scan of its own symmetries' orbit elements. -/
lemma small_process_lane (hdr : basis_base_t) (body : small_basis_t)
    (bits : Nat) (i : Fin 8) :
    laneState (small_process hdr body bits) i =
      (all_elems hdr.spin_inversion (hdr.spin_inversion : ℚ)
        (get_flip_mask_64 hdr.number_spins) bits (lane_syms body i)).foldl
        (scalar_step bits) (scalar_init bits) := by
  have hco : hdr.spin_inversion = 1 → (hdr.spin_inversion : ℚ) = 1 := by
    intro h; rw [h]; norm_num
  unfold small_process lane_syms
  simp only [all_elems, List.flatMap_append, List.foldl_append]
  have hbatches := small_batches_foldl_lane hdr.spin_inversion
    (hdr.spin_inversion : ℚ) (get_flip_mask_64 hdr.number_spins) bits hco
    body.batched_symmetries (batch_acc_init bits) (BatchOk.init_acc bits) i
  have hok : BatchOk bits (body.batched_symmetries.foldl
      (small_batch_step hdr.spin_inversion (hdr.spin_inversion : ℚ)
        (get_flip_mask_64 hdr.number_spins) bits) (batch_acc_init bits)) :=
    small_batches_foldl_ok _ _ _ _ _ _ (BatchOk.init_acc bits)
  rcases hother : body.other_symmetries with _ | b
  · simp only [hother]
    rw [hbatches, laneState_init]
    simp [all_elems]
  · simp only [hother]
    by_cases hcnt : i.val < body.number_other_symmetries
    · rw [small_other_step_lane_lt _ _ _ _ _ hco _ _ _ hok hcnt, hbatches,
        laneState_init]
      simp [all_elems, hcnt]
    · rw [small_other_step_lane_ge _ _ _ _ _ _ _ _ hcnt, hbatches,
        laneState_init]
      simp [all_elems, hcnt]

/- ### The reduction tree and sum bookkeeping -/

/-- The characterization of a (minimum, eigenvalue) triple produced by
scanning the element list `S`: the minimum never exceeds the original
pattern, bounds every scanned value, carries eigenvalue `1 + 0i` while it
still equals the pattern, and otherwise is realized, eigenvalue included,
by some scanned element. -/
def TripInv (bits : Nat) (S : List orbit_elem_t) (t : Nat × ℚ × ℚ) : Prop :=
  t.1 ≤ bits ∧ (∀ el ∈ S, t.1 ≤ el.val) ∧
  (t.1 = bits → t.2.1 = 1 ∧ t.2.2 = 0) ∧
  (t.1 < bits → ∃ el ∈ S, el.val = t.1 ∧ el.re = t.2.1 ∧ el.im = t.2.2)

lemma sel64_inv {bits : Nat} {S1 S2 : List orbit_elem_t}
    {a b : Nat × ℚ × ℚ} (ha : TripInv bits S1 a) (hb : TripInv bits S2 b) :
    TripInv bits (S1 ++ S2) (sel64 a b) := by
  obtain ⟨hle1, hbd1, heq1, hlt1⟩ := ha
  obtain ⟨hle2, hbd2, heq2, hlt2⟩ := hb
  unfold sel64
  split_ifs with h
  · refine ⟨hle1, ?_, heq1, ?_⟩
    · intro el hel
      rcases List.mem_append.mp hel with h' | h'
      · exact hbd1 el h'
      · exact le_trans (le_of_lt h) (hbd2 el h')
    · intro hlt
      obtain ⟨el, hel, he⟩ := hlt1 hlt
      exact ⟨el, List.mem_append_left _ hel, he⟩
  · have hba : b.1 ≤ a.1 := Nat.le_of_not_lt h
    refine ⟨hle2, ?_, heq2, ?_⟩
    · intro el hel
      rcases List.mem_append.mp hel with h' | h'
      · exact le_trans hba (hbd1 el h')
      · exact hbd2 el h'
    · intro hlt
      obtain ⟨el, hel, he⟩ := hlt2 hlt
      exact ⟨el, List.mem_append_right _ hel, he⟩

/-- The scalar scan satisfies the triple characterization of its own
element list. -/
lemma scalar_fold_TripInv (bits : Nat) (els : List orbit_elem_t) :
    TripInv bits els
      ((els.foldl (scalar_step bits) (scalar_init bits)).r,
        (els.foldl (scalar_step bits) (scalar_init bits)).eRe,
        (els.foldl (scalar_step bits) (scalar_init bits)).eIm) := by
  have hchar := CharInv.fold els (scalar_init bits) (CharInv.init_state bits els)
    fun el h => h
  exact ⟨scalar_foldl_r_le bits els (scalar_init bits),
    fun el hel => scalar_foldl_r_le_val bits els _ el hel,
    hchar.2.1, hchar.2.2⟩

/-- The union of the 8 lane element lists, nested in the shape of the
reduction tree. -/
def reduce_union (S : Fin 8 → List orbit_elem_t) : List orbit_elem_t :=
  ((S 0 ++ S 4) ++ (S 2 ++ S 6)) ++ ((S 1 ++ S 5) ++ (S 3 ++ S 7))

lemma mem_reduce_union {S : Fin 8 → List orbit_elem_t}
    {el : orbit_elem_t} : el ∈ reduce_union S ↔ ∃ i, el ∈ S i := by
  constructor
  · intro h
    simp only [reduce_union, List.mem_append] at h
    rcases h with ((h | h) | (h | h)) | ((h | h) | (h | h))
    exacts [⟨0, h⟩, ⟨4, h⟩, ⟨2, h⟩, ⟨6, h⟩, ⟨1, h⟩, ⟨5, h⟩, ⟨3, h⟩, ⟨7, h⟩]
  · rintro ⟨i, h⟩
    fin_cases i <;> simp only [reduce_union, List.mem_append] <;> tauto

/-- The reduction tree output satisfies the triple characterization of
the union of whatever lists characterize its 8 lanes. -/
lemma batch_acc_reduce_TripInv (bits : Nat) (a : batch_acc_64_t)
    (S : Fin 8 → List orbit_elem_t)
    (h : ∀ i, TripInv bits (S i) (a.r i, a.e_re i, a.e_im i)) :
    TripInv bits (reduce_union S)
      ((batch_acc_reduce a).1, (batch_acc_reduce a).2.1,
        (batch_acc_reduce a).2.2.1) := by
  exact sel64_inv
    (sel64_inv (sel64_inv (h 0) (h 4)) (sel64_inv (h 2) (h 6)))
    (sel64_inv (sel64_inv (h 1) (h 5)) (sel64_inv (h 3) (h 7)))

/-- The `n` output of the reduction is the horizontal sum of the lanes. -/
lemma batch_acc_reduce_n (a : batch_acc_64_t) :
    (batch_acc_reduce a).2.2.2 =
      a.n 0 + a.n 1 + a.n 2 + a.n 3 + a.n 4 + a.n 5 + a.n 6 + a.n 7 := rfl

/-- The 8 lane indices in order. -/
def lanes8 : List (Fin 8) := [0, 1, 2, 3, 4, 5, 6, 7]

lemma mem_lanes8 (i : Fin 8) : i ∈ lanes8 := by fin_cases i <;> decide

/-- The flat compiled-symmetry list of a small basis, in the sequence
order a one-at-a-time scalar scan would use: for each batch its 8 lanes
in order, then the valid lanes of the remainder batch. -/
def small_syms (body : small_basis_t) : List big_symmetry_t :=
  (body.batched_symmetries.flatMap fun b => lanes8.map fun i => lane_sym b i)
    ++
  (match body.other_symmetries with
   | none => []
   | some b =>
     (lanes8.filter fun i => i.val < body.number_other_symmetries).map
       fun i => lane_sym b i)

lemma stab_sum_append (bits : Nat) (l1 l2 : List orbit_elem_t) :
    stab_sum bits (l1 ++ l2) = stab_sum bits l1 + stab_sum bits l2 := by
  simp [stab_sum]

lemma stab_sum_flatMap {α : Type} (bits : Nat) (f : α → List orbit_elem_t)
    (l : List α) :
    stab_sum bits (l.flatMap f) = (l.map fun x => stab_sum bits (f x)).sum := by
  induction l with
  | nil => simp [stab_sum]
  | cons x rest ih => simp [List.flatMap_cons, stab_sum_append, ih]

lemma list_sum_map_add {α : Type} (l : List α) (f g : α → ℚ) :
    (l.map fun x => f x + g x).sum = (l.map f).sum + (l.map g).sum := by
  induction l with
  | nil => simp
  | cons x rest ih => simp [ih]; ring

lemma list_sum_comm {α β : Type} (l1 : List α) (l2 : List β)
    (f : α → β → ℚ) :
    (l1.map fun a => (l2.map fun b => f a b).sum).sum =
      (l2.map fun b => (l1.map fun a => f a b).sum).sum := by
  induction l1 with
  | nil => simp
  | cons a rest ih =>
    simp only [List.map_cons, List.sum_cons, ih, list_sum_map_add]

lemma list_sum_filter_ite {α : Type} (l : List α) (p : α → Prop)
    [DecidablePred p] (f : α → ℚ) :
    ((l.filter fun x => decide (p x)).map f).sum =
      (l.map fun x => if p x then f x else 0).sum := by
  induction l with
  | nil => simp
  | cons x rest ih =>
    by_cases h : p x <;> simp [List.filter_cons, h, ih]

/- ### Small-path element collections -/

/-- All extended-orbit elements scanned by the 64-bit path, in the flat
sequence order of the compiled group. -/
def small_elems (hdr : basis_base_t) (body : small_basis_t) (bits : Nat) :
    List orbit_elem_t :=
  all_elems hdr.spin_inversion (hdr.spin_inversion : ℚ)
    (get_flip_mask_64 hdr.number_spins) bits (small_syms body)

/-- The extended-orbit elements scanned by lane `i` of the 64-bit path. -/
def lane_elems (hdr : basis_base_t) (body : small_basis_t) (bits : Nat)
    (i : Fin 8) : List orbit_elem_t :=
  all_elems hdr.spin_inversion (hdr.spin_inversion : ℚ)
    (get_flip_mask_64 hdr.number_spins) bits (lane_syms body i)

lemma q_sum_flatMap {α : Type} (l : List α) (g : α → List ℚ) :
    (l.flatMap g).sum = (l.map fun x => (g x).sum).sum := by
  induction l with
  | nil => simp
  | cons x rest ih => simp [ih]

/-- Lane `i`'s stabilizer partial sum after the whole SIMD scan. -/
lemma small_process_n (hdr : basis_base_t) (body : small_basis_t)
    (bits : Nat) (i : Fin 8) :
    (small_process hdr body bits).n i =
      stab_sum bits (lane_elems hdr body bits i) := by
  have h := congrArg scalar_acc_t.n (small_process_lane hdr body bits i)
  have h2 := scalar_foldl_n bits (lane_elems hdr body bits i)
    (scalar_init bits) (le_refl bits)
  rw [show (laneState (small_process hdr body bits) i).n =
    (small_process hdr body bits).n i from rfl] at h
  rw [h]
  rw [show (all_elems hdr.spin_inversion (hdr.spin_inversion : ℚ)
    (get_flip_mask_64 hdr.number_spins) bits (lane_syms body i)) =
    lane_elems hdr body bits i from rfl, h2]
  simp [scalar_init]

/-- Lane `i`'s (minimum, eigenvalue) triple after the whole SIMD scan
satisfies the triple characterization of its own elements. -/
lemma small_process_TripInv (hdr : basis_base_t) (body : small_basis_t)
    (bits : Nat) (i : Fin 8) :
    TripInv bits (lane_elems hdr body bits i)
      ((small_process hdr body bits).r i,
        (small_process hdr body bits).e_re i,
        (small_process hdr body bits).e_im i) := by
  have h : laneState (small_process hdr body bits) i =
      (lane_elems hdr body bits i).foldl (scalar_step bits)
        (scalar_init bits) := small_process_lane hdr body bits i
  have h3 := scalar_fold_TripInv bits (lane_elems hdr body bits i)
  have hr := congrArg scalar_acc_t.r h
  have hre := congrArg scalar_acc_t.eRe h
  have him := congrArg scalar_acc_t.eIm h
  rw [show (laneState (small_process hdr body bits) i).r =
    (small_process hdr body bits).r i from rfl] at hr
  rw [show (laneState (small_process hdr body bits) i).eRe =
    (small_process hdr body bits).e_re i from rfl] at hre
  rw [show (laneState (small_process hdr body bits) i).eIm =
    (small_process hdr body bits).e_im i from rfl] at him
  rw [hr, hre, him]
  exact h3

/-- Membership in the flat element list is membership in some lane. -/
lemma mem_small_elems_iff (hdr : basis_base_t) (body : small_basis_t)
    (bits : Nat) (el : orbit_elem_t) :
    el ∈ small_elems hdr body bits ↔
      ∃ i, el ∈ lane_elems hdr body bits i := by
  unfold small_elems lane_elems all_elems small_syms lane_syms
  constructor
  · intro h
    rw [List.mem_flatMap] at h
    obtain ⟨s, hs, hel⟩ := h
    rcases List.mem_append.mp hs with hA | hB
    · rw [List.mem_flatMap] at hA
      obtain ⟨b, hb, hmap⟩ := hA
      rw [List.mem_map] at hmap
      obtain ⟨i, -, rfl⟩ := hmap
      exact ⟨i, List.mem_flatMap.mpr ⟨lane_sym b i,
        List.mem_append_left _ (List.mem_map.mpr ⟨b, hb, rfl⟩), hel⟩⟩
    · rcases hother : body.other_symmetries with _ | b
      · simp [hother] at hB
      · simp only [hother] at hB
        rw [List.mem_map] at hB
        obtain ⟨i, hfil, rfl⟩ := hB
        rw [List.mem_filter] at hfil
        have hcnt : i.val < body.number_other_symmetries := by
          simpa using hfil.2
        refine ⟨i, List.mem_flatMap.mpr ⟨lane_sym b i,
          List.mem_append_right _ ?_, hel⟩⟩
        simp [hother, hcnt]
  · rintro ⟨i, h⟩
    rw [List.mem_flatMap] at h
    obtain ⟨s, hs, hel⟩ := h
    rcases List.mem_append.mp hs with hA | hB
    · rw [List.mem_map] at hA
      obtain ⟨b, hb, rfl⟩ := hA
      exact List.mem_flatMap.mpr ⟨lane_sym b i,
        List.mem_append_left _ (List.mem_flatMap.mpr
          ⟨b, hb, List.mem_map.mpr ⟨i, mem_lanes8 i, rfl⟩⟩), hel⟩
    · rcases hother : body.other_symmetries with _ | b
      · simp [hother] at hB
      · simp only [hother] at hB
        by_cases hcnt : i.val < body.number_other_symmetries
        · rw [if_pos hcnt, List.mem_singleton] at hB
          subst hB
          refine List.mem_flatMap.mpr ⟨lane_sym b i,
            List.mem_append_right _ ?_, hel⟩
          simp only [hother]
          exact List.mem_map.mpr ⟨i,
            List.mem_filter.mpr ⟨mem_lanes8 i, by simpa using hcnt⟩, rfl⟩
        · rw [if_neg hcnt] at hB
          simp at hB

/-- The remainder batch's contribution to lane `i`'s stabilizer sum. -/
def lane_other_stab (hdr : basis_base_t) (body : small_basis_t)
    (bits : Nat) (i : Fin 8) : ℚ :=
  match body.other_symmetries with
  | none => 0
  | some b =>
    if i.val < body.number_other_symmetries then
      stab_sum bits (sym_elems hdr.spin_inversion (hdr.spin_inversion : ℚ)
        (get_flip_mask_64 hdr.number_spins) bits (lane_sym b i))
    else 0

/-- Decomposition of lane `i`'s stabilizer sum over the batches. -/
lemma lane_elems_stab (hdr : basis_base_t) (body : small_basis_t)
    (bits : Nat) (i : Fin 8) :
    stab_sum bits (lane_elems hdr body bits i) =
      (body.batched_symmetries.map fun b =>
        stab_sum bits (sym_elems hdr.spin_inversion
          (hdr.spin_inversion : ℚ) (get_flip_mask_64 hdr.number_spins)
          bits (lane_sym b i))).sum + lane_other_stab hdr body bits i := by
  unfold lane_elems all_elems lane_syms lane_other_stab
  rw [List.flatMap_append, stab_sum_append]
  congr 1
  · rw [stab_sum_flatMap, List.map_map]
    rfl
  · rcases hother : body.other_symmetries with _ | b
    · simp [hother, stab_sum]
    · simp only [hother]
      by_cases hcnt : i.val < body.number_other_symmetries
      · simp only [hcnt, if_true, ite_true]
        simp [stab_sum_append]
      · simp only [hcnt, if_false, ite_false]
        simp [stab_sum]

/-- Decomposition of the flat stabilizer sum over batches and lanes. -/
lemma small_elems_stab (hdr : basis_base_t) (body : small_basis_t)
    (bits : Nat) :
    stab_sum bits (small_elems hdr body bits) =
      (body.batched_symmetries.map fun b =>
        (lanes8.map fun i => stab_sum bits (sym_elems hdr.spin_inversion
          (hdr.spin_inversion : ℚ) (get_flip_mask_64 hdr.number_spins)
          bits (lane_sym b i))).sum).sum +
      (lanes8.map fun i => lane_other_stab hdr body bits i).sum := by
  unfold small_elems all_elems small_syms
  rw [List.flatMap_append, stab_sum_append]
  congr 1
  · rw [stab_sum_flatMap, List.map_flatMap, q_sum_flatMap]
    simp only [List.map_map, Function.comp_def]
  · rcases hother : body.other_symmetries with _ | b
    · simp only [hother]
      have hz : (lanes8.map fun i => lane_other_stab hdr body bits i) =
          lanes8.map fun _ => (0 : ℚ) := by
        apply List.map_congr_left
        intro i _
        simp [lane_other_stab, hother]
      rw [hz]
      simp [stab_sum, lanes8]
    · simp only [hother]
      rw [stab_sum_flatMap, List.map_map]
      rw [list_sum_filter_ite lanes8
        (fun i => i.val < body.number_other_symmetries)]
      apply congrArg List.sum
      apply List.map_congr_left
      intro i _
      simp [lane_other_stab, hother, Function.comp]

/-- The per-lane stabilizer sums add up to the flat stabilizer sum. -/
lemma lane_sums_total (hdr : basis_base_t) (body : small_basis_t)
    (bits : Nat) :
    stab_sum bits (lane_elems hdr body bits 0) +
      stab_sum bits (lane_elems hdr body bits 1) +
      stab_sum bits (lane_elems hdr body bits 2) +
      stab_sum bits (lane_elems hdr body bits 3) +
      stab_sum bits (lane_elems hdr body bits 4) +
      stab_sum bits (lane_elems hdr body bits 5) +
      stab_sum bits (lane_elems hdr body bits 6) +
      stab_sum bits (lane_elems hdr body bits 7) =
      stab_sum bits (small_elems hdr body bits) := by
  rw [lane_elems_stab hdr body bits 0, lane_elems_stab hdr body bits 1,
    lane_elems_stab hdr body bits 2, lane_elems_stab hdr body bits 3,
    lane_elems_stab hdr body bits 4, lane_elems_stab hdr body bits 5,
    lane_elems_stab hdr body bits 6, lane_elems_stab hdr body bits 7,
    small_elems_stab hdr body bits, list_sum_comm]
  simp only [lanes8, List.map_cons, List.map_nil, List.sum_cons,
    List.sum_nil]
  ring

/-- The `n` component of the SIMD reduction equals the claim-side
stabilizer sum over all extended-orbit elements. -/
lemma small_reduce_n (hdr : basis_base_t) (body : small_basis_t)
    (bits : Nat) :
    (batch_acc_reduce (small_process hdr body bits)).2.2.2 =
      stab_sum bits (small_elems hdr body bits) := by
  rw [batch_acc_reduce_n, small_process_n hdr body bits 0,
    small_process_n hdr body bits 1, small_process_n hdr body bits 2,
    small_process_n hdr body bits 3, small_process_n hdr body bits 4,
    small_process_n hdr body bits 5, small_process_n hdr body bits 6,
    small_process_n hdr body bits 7]
  exact lane_sums_total hdr body bits

/-- `TripInv` only depends on the element list through membership. -/
lemma TripInv_congr {bits : Nat} {S1 S2 : List orbit_elem_t}
    {t : Nat × ℚ × ℚ} (hmem : ∀ el, el ∈ S1 ↔ el ∈ S2)
    (h : TripInv bits S1 t) : TripInv bits S2 t := by
  obtain ⟨hle, hbd, heq, hlt⟩ := h
  refine ⟨hle, fun el hel => hbd el ((hmem el).mpr hel), heq, ?_⟩
  intro h
  obtain ⟨el, hel, he⟩ := hlt h
  exact ⟨el, (hmem el).mp hel, he⟩

/-- Two triples characterized over the same elements agree, provided any
two elements sharing a value carry the same eigenvalue. -/
lemma TripInv_eq {bits : Nat} {S : List orbit_elem_t}
    {t1 t2 : Nat × ℚ × ℚ}
    (h1 : TripInv bits S t1) (h2 : TripInv bits S t2)
    (htie : ∀ el1 ∈ S, ∀ el2 ∈ S, el1.val = el2.val →
      el1.re = el2.re ∧ el1.im = el2.im) :
    t1 = t2 := by
  obtain ⟨r1, c1⟩ := t1
  obtain ⟨re1, im1⟩ := c1
  obtain ⟨r2, c2⟩ := t2
  obtain ⟨re2, im2⟩ := c2
  obtain ⟨hle1, hbd1, heq1, hlt1⟩ := h1
  obtain ⟨hle2, hbd2, heq2, hlt2⟩ := h2
  dsimp only at hle1 hbd1 heq1 hlt1 hle2 hbd2 heq2 hlt2 ⊢
  have hr : r1 = r2 := by
    apply le_antisymm
    · rcases lt_or_eq_of_le hle2 with h | h
      · obtain ⟨el, hel, hv, -, -⟩ := hlt2 h
        exact hv ▸ hbd1 el hel
      · rw [h]; exact hle1
    · rcases lt_or_eq_of_le hle1 with h | h
      · obtain ⟨el, hel, hv, -, -⟩ := hlt1 h
        exact hv ▸ hbd2 el hel
      · rw [h]; exact hle2
  subst hr
  rcases lt_or_eq_of_le hle1 with h | h
  · obtain ⟨el1, hel1, hv1, hre1, him1⟩ := hlt1 h
    obtain ⟨el2, hel2, hv2, hre2, him2⟩ := hlt2 h
    obtain ⟨hre, him⟩ := htie el1 hel1 el2 hel2 (by rw [hv1, hv2])
    rw [← hre1, ← hre2, ← him1, ← him2, hre, him]
  · obtain ⟨he1, hi1⟩ := heq1 h
    obtain ⟨he2, hi2⟩ := heq2 h
    rw [he1, he2, hi1, hi2]

/-- On widths of at most 64 bits the two flip masks agree. -/
lemma get_flip_mask_64_eq (n : Nat) (h : n ≤ 64) :
    get_flip_mask_64 n = get_flip_mask_512 n := by
  unfold get_flip_mask_64 get_flip_mask_512
  by_cases h0 : n = 0
  · simp [h0]
  · rw [if_neg h0, Nat.shiftRight_eq_div_pow]
    have hpow : (2 : Nat) ^ 64 = 2 ^ (64 - n) * 2 ^ n := by
      rw [← pow_add]
      congr 1
      omega
    have ha : 0 < (2 : Nat) ^ (64 - n) := Nat.pos_pow_of_pos _ (by norm_num)
    have hb : 0 < (2 : Nat) ^ n := Nat.pos_pow_of_pos _ (by norm_num)
    rw [hpow]
    have hc : (2 : Nat) ^ n * 2 ^ (64 - n) = 2 ^ (64 - n) * 2 ^ n :=
      Nat.mul_comm _ _
    have hab : 0 < (2 : Nat) ^ (64 - n) * 2 ^ n := Nat.mul_pos ha hb
    have h1 : ((2 : Nat) ^ n - 1) * 2 ^ (64 - n) =
        2 ^ n * 2 ^ (64 - n) - 2 ^ (64 - n) := by
      rw [Nat.sub_mul, one_mul]
    apply Nat.div_eq_of_lt_le
    · omega
    · rw [Nat.sub_add_cancel hb]
      omega

lemma sum_const_nat {α : Type} (l : List α) (c : Nat) :
    (l.map fun _ => c).sum = c * l.length := by
  induction l with
  | nil => simp
  | cons x rest ih => simp [ih]; ring

/-- The length of a filtered lane list is the lane count. -/
lemma lanes8_filter_length (count : Nat) (h : count < 8) :
    (lanes8.filter fun i => i.val < count).length = count := by
  interval_cases count <;> decide

/-- The flat symmetry list has `8 * #batches + #other` elements. -/
lemma small_syms_length (body : small_basis_t)
    (hcnt : body.number_other_symmetries < 8)
    (hnone : body.other_symmetries = none →
      body.number_other_symmetries = 0) :
    (small_syms body).length =
      batch_size * body.batched_symmetries.length +
        body.number_other_symmetries := by
  unfold small_syms
  rw [List.length_append, List.length_flatMap]
  congr 1
  · have hconst : (List.length ∘ fun b =>
        List.map (fun i => lane_sym b i) lanes8) =
        fun (_ : batched_symmetry_t) => 8 := by
      funext b
      simp [lanes8]
    rw [hconst, sum_const_nat]
    rfl
  · rcases hother : body.other_symmetries with _ | b
    · simp [hnone hother]
    · rw [List.length_map]
      exact lanes8_filter_length _ hcnt

lemma foldr_cong_mem {α β : Type} (l : List α) (f g : α → β → β) (c : β)
    (h : ∀ a ∈ l, ∀ acc, f a acc = g a acc) :
    l.foldr f c = l.foldr g c := by
  induction l with
  | nil => rfl
  | cons x rest ih =>
    simp only [List.foldr_cons]
    rw [h x (List.mem_cons_self _ _), ih]
    intro a ha acc
    exact h a (List.mem_cons_of_mem _ ha) acc

lemma range_foldr_bits (x : Nat) :
    ∀ (w : Nat) (c : Nat),
      (List.range w).foldr
        (fun i acc => 2 * acc + (if x.testBit i then 1 else 0)) c =
        x % 2 ^ w + 2 ^ w * c := by
  intro w
  induction w with
  | zero => intro c; simp [Nat.mod_one]
  | succ w ih =>
    intro c
    rw [List.range_succ, List.foldr_append]
    simp only [List.foldr_cons, List.foldr_nil]
    rw [ih]
    have hb : (if x.testBit w then 1 else 0) = x / 2 ^ w % 2 := by
      have h2 : x / 2 ^ w % 2 < 2 := Nat.mod_lt _ (by norm_num)
      rw [Nat.testBit_to_div_mod]
      by_cases hbit : x / 2 ^ w % 2 = 1
      · simp [hbit]
      · rw [if_neg (by simp [hbit])]
        omega
    have hmod : x % 2 ^ (w + 1) = x % 2 ^ w + 2 ^ w * (x / 2 ^ w % 2) := by
      rw [pow_succ, Nat.mod_mul]
    rw [hb, hmod]
    ring

/-- Applying the identity permutation on `w` points to a pattern below
`2 ^ w` leaves it unchanged. -/
lemma applyPerm_range (w x : Nat) (h : x < 2 ^ w) :
    applyPerm (List.range w) x = x := by
  unfold applyPerm
  rw [List.length_range]
  rw [foldr_cong_mem (List.range w) _
    (fun i acc => 2 * acc + (if x.testBit i then 1 else 0)) 0 ?_]
  · rw [range_foldr_bits x w 0, Nat.mod_eq_of_lt h]
    ring
  · intro a ha acc
    rw [List.getD_eq_getElem?_getD]
    rw [List.getElem?_range (List.mem_range.mp ha)]
    rfl

/- ### Dissection of the two paths -/

/-- The extended-orbit elements of the 512-bit path, in scan order. -/
def big_elems (hdr : basis_base_t) (body : big_basis_t) (bits : Nat) :
    List orbit_elem_t :=
  all_elems hdr.spin_inversion (hdr.spin_inversion : ℚ)
    (get_flip_mask_512 hdr.number_spins) bits body.symmetries

/-- The scalar accumulator after the 512-bit loop. -/
def big_acc (hdr : basis_base_t) (body : big_basis_t) (bits : Nat) :
    scalar_acc_t :=
  body.symmetries.foldl
    (big_step hdr.spin_inversion (hdr.spin_inversion : ℚ)
      (get_flip_mask_512 hdr.number_spins) bits) (scalar_init bits)

lemma big_acc_eq_fold (hdr : basis_base_t) (body : big_basis_t)
    (bits : Nat) :
    big_acc hdr body bits =
      (big_elems hdr body bits).foldl (scalar_step bits)
        (scalar_init bits) :=
  big_foldl_eq _ _ _ _ _ _

lemma big_acc_n (hdr : basis_base_t) (body : big_basis_t) (bits : Nat) :
    (big_acc hdr body bits).n = stab_sum bits (big_elems hdr body bits) := by
  rw [big_acc_eq_fold, scalar_foldl_n bits _ _ (le_refl bits)]
  simp [scalar_init]

lemma big_acc_TripInv (hdr : basis_base_t) (body : big_basis_t)
    (bits : Nat) :
    TripInv bits (big_elems hdr body bits)
      ((big_acc hdr body bits).r, (big_acc hdr body bits).eRe,
        (big_acc hdr body bits).eIm) := by
  rw [big_acc_eq_fold]
  exact scalar_fold_TripInv bits _

/-- The reduced SIMD triple satisfies the characterization over the flat
element list. -/
lemma small_TripInv (hdr : basis_base_t) (body : small_basis_t)
    (bits : Nat) :
    TripInv bits (small_elems hdr body bits)
      ((batch_acc_reduce (small_process hdr body bits)).1,
        (batch_acc_reduce (small_process hdr body bits)).2.1,
        (batch_acc_reduce (small_process hdr body bits)).2.2.1) := by
  apply TripInv_congr
    (fun el => Iff.trans mem_reduce_union
      (Iff.symm (mem_small_elems_iff hdr body bits el)))
  exact batch_acc_reduce_TripInv bits _ _
    (small_process_TripInv hdr body bits)

/-- Dissection of a successful 64-bit `get_state_info` call. -/
lemma get_state_info_small_some {hdr : basis_base_t}
    {body : small_basis_t} {bits r : Nat} {cre cim : ℚ} {nm : ℝ}
    (h : get_state_info_small hdr body bits = some (r, cre, cim, nm)) :
    (hdr.has_symmetries = false ∧ r = bits ∧ cre = 1 ∧ cim = 0 ∧
      nm = Real.sqrt ((1 : ℚ) : ℝ)) ∨
    (hdr.has_symmetries = true ∧
      r = (batch_acc_reduce (small_process hdr body bits)).1 ∧
      cre = (batch_acc_reduce (small_process hdr body bits)).2.1 ∧
      cim = (batch_acc_reduce (small_process hdr body bits)).2.2.1 ∧
      ¬snap ((batch_acc_reduce (small_process hdr body bits)).2.2.2) < 0 ∧
      nm = Real.sqrt
        ((snap ((batch_acc_reduce (small_process hdr body bits)).2.2.2) /
          (small_group_size hdr body : ℚ) : ℚ) : ℝ)) := by
  unfold get_state_info_small get_state_info_small_raw at h
  by_cases hsym : hdr.has_symmetries = true
  · right
    rw [if_neg (by simp [hsym])] at h
    dsimp only at h
    split_ifs at h with hneg
    · simp at h
    · simp only [Option.map_some', Option.some.injEq, Prod.mk.injEq] at h
      obtain ⟨e1, e2, e3, e4⟩ := h
      exact ⟨hsym, e1.symm, e2.symm, e3.symm, hneg, e4.symm⟩
  · left
    rw [if_pos hsym] at h
    simp only [Option.map_some', Option.some.injEq, Prod.mk.injEq] at h
    obtain ⟨e1, e2, e3, e4⟩ := h
    exact ⟨by simpa using hsym, e1.symm, e2.symm, e3.symm, e4.symm⟩

/-- Dissection of a successful 512-bit `get_state_info` call. -/
lemma get_state_info_big_some {hdr : basis_base_t} {body : big_basis_t}
    {bits r : Nat} {cre cim : ℚ} {nm : ℝ}
    (h : get_state_info_big hdr body bits = some (r, cre, cim, nm)) :
    (hdr.has_symmetries = false ∧ r = bits ∧ cre = 1 ∧ cim = 0 ∧
      nm = Real.sqrt ((1 : ℚ) : ℝ)) ∨
    (hdr.has_symmetries = true ∧
      r = (big_acc hdr body bits).r ∧
      cre = (big_acc hdr body bits).eRe ∧
      cim = (big_acc hdr body bits).eIm ∧
      ¬snap ((big_acc hdr body bits).n) < 0 ∧
      nm = Real.sqrt ((snap ((big_acc hdr body bits).n) /
        ((((if hdr.spin_inversion ≠ 0 then 1 else 0) + 1) *
          body.symmetries.length : Nat) : ℚ) : ℚ) : ℝ)) := by
  unfold get_state_info_big get_state_info_big_raw at h
  by_cases hsym : hdr.has_symmetries = true
  · right
    rw [if_neg (by simp [hsym])] at h
    dsimp only at h
    split_ifs at h with hneg hinv
    · simp at h
    · simp only [Option.map_some', Option.some.injEq, Prod.mk.injEq] at h
      obtain ⟨e1, e2, e3, e4⟩ := h
      refine ⟨hsym, ?_, ?_, ?_, hneg, ?_⟩
      · rw [← e1]; exact rfl
      · rw [← e2]; exact rfl
      · rw [← e3]; exact rfl
      · rw [← e4, if_pos hinv]; exact rfl
    · simp only [Option.map_some', Option.some.injEq, Prod.mk.injEq] at h
      obtain ⟨e1, e2, e3, e4⟩ := h
      refine ⟨hsym, ?_, ?_, ?_, hneg, ?_⟩
      · rw [← e1]; exact rfl
      · rw [← e2]; exact rfl
      · rw [← e3]; exact rfl
      · rw [← e4, if_neg hinv]; exact rfl
  · left
    rw [if_pos hsym] at h
    simp only [Option.map_some', Option.some.injEq, Prod.mk.injEq] at h
    obtain ⟨e1, e2, e3, e4⟩ := h
    exact ⟨by simpa using hsym, e1.symm, e2.symm, e3.symm, e4.symm⟩

/- ### Claim C10: the representative never exceeds the input -/

/-- **C10.**  On both paths, a successful `get_state_info` returns a
representative at most the input pattern (the running minimum starts at
the pattern and only decreases); and when no extended-orbit element is
strictly smaller than the pattern — in particular for the empty group or
a group without the identity — the representative equals the pattern. -/
theorem C10_representative_le (hdr : basis_base_t) (bits : Nat) :
    (∀ (body : small_basis_t) (r : Nat) (cre cim : ℚ) (nm : ℝ),
      get_state_info_small hdr body bits = some (r, cre, cim, nm) →
      r ≤ bits ∧
      ((∀ el ∈ small_elems hdr body bits, ¬el.val < bits) → r = bits)) ∧
    (∀ (body : big_basis_t) (r : Nat) (cre cim : ℚ) (nm : ℝ),
      get_state_info_big hdr body bits = some (r, cre, cim, nm) →
      r ≤ bits ∧
      ((∀ el ∈ big_elems hdr body bits, ¬el.val < bits) → r = bits)) := by
  constructor
  · intro body r cre cim nm h
    rcases get_state_info_small_some h with
      ⟨-, hr, -, -, -⟩ | ⟨-, hr, -, -, -, -⟩
    · exact ⟨le_of_eq hr, fun _ => hr⟩
    · obtain ⟨hle, hbd, heq, hlt⟩ := small_TripInv hdr body bits
      subst hr
      refine ⟨hle, fun hno => ?_⟩
      rcases lt_or_eq_of_le hle with hlt' | h'
      · obtain ⟨el, hel, hv, -, -⟩ := hlt hlt'
        exact absurd (hv ▸ hlt') (hno el hel)
      · exact h'
  · intro body r cre cim nm h
    rcases get_state_info_big_some h with
      ⟨-, hr, -, -, -⟩ | ⟨-, hr, -, -, -, -⟩
    · exact ⟨le_of_eq hr, fun _ => hr⟩
    · obtain ⟨hle, hbd, heq, hlt⟩ := big_acc_TripInv hdr body bits
      subst hr
      refine ⟨hle, fun hno => ?_⟩
      rcases lt_or_eq_of_le hle with hlt' | h'
      · obtain ⟨el, hel, hv, -, -⟩ := hlt hlt'
        exact absurd (hv ▸ hlt') (hno el hel)
      · exact h'

/-- Witness for C10: a single bit-swap symmetry maps the pattern `0b10`
to `0b01`, and the returned representative 1 is at most the input 2. -/
theorem C10_representative_le_witness :
    (1 : Nat) ≤ 2 ∧
    ((∀ el ∈ small_elems ⟨2, true, 0⟩ ⟨[], some ⟨[[1, 0]], [1], [0]⟩, 1⟩ 2,
      ¬el.val < 2) → 1 = 2) := by
  apply (C10_representative_le ⟨2, true, 0⟩ 2).1
    ⟨[], some ⟨[[1, 0]], [1], [0]⟩, 1⟩ 1 1 0 (Real.sqrt ((0 : ℚ) : ℝ))
  have hraw : get_state_info_small_raw ⟨2, true, 0⟩
      ⟨[], some ⟨[[1, 0]], [1], [0]⟩, 1⟩ 2 = some (1, 1, 0, 0) := by
    unfold get_state_info_small_raw
    rw [if_neg (by simp)]
    dsimp only
    have hn : (batch_acc_reduce (small_process ⟨2, true, 0⟩
        ⟨[], some ⟨[[1, 0]], [1], [0]⟩, 1⟩ 2)).2.2.2 = 0 := by
      rw [batch_acc_reduce_n,
        show (small_process ⟨2, true, 0⟩
          ⟨[], some ⟨[[1, 0]], [1], [0]⟩, 1⟩ 2).n 0 = 0 from by decide,
        show (small_process ⟨2, true, 0⟩
          ⟨[], some ⟨[[1, 0]], [1], [0]⟩, 1⟩ 2).n 1 = 0 from by decide,
        show (small_process ⟨2, true, 0⟩
          ⟨[], some ⟨[[1, 0]], [1], [0]⟩, 1⟩ 2).n 2 = 0 from by decide,
        show (small_process ⟨2, true, 0⟩
          ⟨[], some ⟨[[1, 0]], [1], [0]⟩, 1⟩ 2).n 3 = 0 from by decide,
        show (small_process ⟨2, true, 0⟩
          ⟨[], some ⟨[[1, 0]], [1], [0]⟩, 1⟩ 2).n 4 = 0 from by decide,
        show (small_process ⟨2, true, 0⟩
          ⟨[], some ⟨[[1, 0]], [1], [0]⟩, 1⟩ 2).n 5 = 0 from by decide,
        show (small_process ⟨2, true, 0⟩
          ⟨[], some ⟨[[1, 0]], [1], [0]⟩, 1⟩ 2).n 6 = 0 from by decide,
        show (small_process ⟨2, true, 0⟩
          ⟨[], some ⟨[[1, 0]], [1], [0]⟩, 1⟩ 2).n 7 = 0 from by decide]
      norm_num
    rw [hn, show snap (0 : ℚ) = 0 from by norm_num [snap],
      if_neg (by norm_num : ¬(0 : ℚ) < 0),
      show (batch_acc_reduce (small_process ⟨2, true, 0⟩
        ⟨[], some ⟨[[1, 0]], [1], [0]⟩, 1⟩ 2)).1 = 1 from by decide,
      show (batch_acc_reduce (small_process ⟨2, true, 0⟩
        ⟨[], some ⟨[[1, 0]], [1], [0]⟩, 1⟩ 2)).2.1 = 1 from by decide,
      show (batch_acc_reduce (small_process ⟨2, true, 0⟩
        ⟨[], some ⟨[[1, 0]], [1], [0]⟩, 1⟩ 2)).2.2.1 = 0 from by decide]
    norm_num [small_group_size, batch_size]
  unfold get_state_info_small
  rw [hraw]
  rfl

/-- Forward evaluation of the 64-bit raw path when the snapped sum is
not negative. -/
lemma get_state_info_small_raw_eval (hdr : basis_base_t)
    (body : small_basis_t) (bits : Nat)
    (hsym : hdr.has_symmetries = true)
    (hpos :
      ¬snap ((batch_acc_reduce (small_process hdr body bits)).2.2.2) < 0) :
    get_state_info_small_raw hdr body bits =
      some ((batch_acc_reduce (small_process hdr body bits)).1,
        (batch_acc_reduce (small_process hdr body bits)).2.1,
        (batch_acc_reduce (small_process hdr body bits)).2.2.1,
        snap ((batch_acc_reduce (small_process hdr body bits)).2.2.2) /
          (small_group_size hdr body : ℚ)) := by
  unfold get_state_info_small_raw
  rw [if_neg (by simp [hsym])]
  dsimp only
  rw [if_neg hpos]

/-- The 64-bit raw path hits the fatal assertion when the snapped sum is
negative. -/
lemma get_state_info_small_raw_none (hdr : basis_base_t)
    (body : small_basis_t) (bits : Nat)
    (hsym : hdr.has_symmetries = true)
    (hneg :
      snap ((batch_acc_reduce (small_process hdr body bits)).2.2.2) < 0) :
    get_state_info_small_raw hdr body bits = none := by
  unfold get_state_info_small_raw
  rw [if_neg (by simp [hsym])]
  dsimp only
  rw [if_pos hneg]

/-- Forward evaluation of the 512-bit raw path when the snapped sum is
not negative. -/
lemma get_state_info_big_raw_eval (hdr : basis_base_t)
    (body : big_basis_t) (bits : Nat)
    (hsym : hdr.has_symmetries = true)
    (hpos : ¬snap ((big_acc hdr body bits).n) < 0) :
    get_state_info_big_raw hdr body bits =
      some ((big_acc hdr body bits).r, (big_acc hdr body bits).eRe,
        (big_acc hdr body bits).eIm,
        snap ((big_acc hdr body bits).n) /
          ((((if hdr.spin_inversion ≠ 0 then 1 else 0) + 1) *
            body.symmetries.length : Nat) : ℚ)) := by
  unfold big_acc at hpos
  unfold get_state_info_big_raw
  rw [if_neg (by simp [hsym])]
  dsimp only
  rw [if_neg hpos]
  rfl

/-- The 512-bit raw path hits the fatal assertion when the snapped sum
is negative. -/
lemma get_state_info_big_raw_none (hdr : basis_base_t)
    (body : big_basis_t) (bits : Nat)
    (hsym : hdr.has_symmetries = true)
    (hneg : snap ((big_acc hdr body bits).n) < 0) :
    get_state_info_big_raw hdr body bits = none := by
  unfold big_acc at hneg
  unfold get_state_info_big_raw
  rw [if_neg (by simp [hsym])]
  dsimp only
  rw [if_pos hneg]

/-- Evaluation of the 64-bit path on a group consisting of exactly one
identity symmetry, stored in lane 0 of the remainder batch. -/
lemma gsi_small_identity (spins bits : Nat) (b : batched_symmetry_t)
    (hbits : bits < 2 ^ 64) (hperm : lanePerm b 0 = List.range 64)
    (hre : laneRe b 0 = 1) (him : laneIm b 0 = 0) :
    get_state_info_small ⟨spins, true, 0⟩ ⟨[], some b, 1⟩ bits =
      some (bits, 1, 0, 1) := by
  have hE : small_elems ⟨spins, true, 0⟩ ⟨[], some b, 1⟩ bits =
      [⟨bits, 1, 0⟩] := by
    unfold small_elems small_syms all_elems
    dsimp only
    have hfil : (lanes8.filter fun i => decide (i.val < 1)) =
        ([0] : List (Fin 8)) := by decide
    rw [hfil]
    simp only [List.flatMap_nil, List.map_cons, List.map_nil,
      List.nil_append, List.flatMap_cons, List.flatMap_nil,
      List.append_nil]
    unfold sym_elems lane_sym
    rw [if_neg (by norm_num)]
    dsimp only
    rw [hperm, hre, him, applyPerm_range 64 bits hbits]
  have hn : (batch_acc_reduce (small_process ⟨spins, true, 0⟩
      ⟨[], some b, 1⟩ bits)).2.2.2 = 1 := by
    rw [small_reduce_n, hE]
    simp [stab_sum]
  obtain ⟨hle, hbd, heq, hlt⟩ :=
    small_TripInv ⟨spins, true, 0⟩ ⟨[], some b, 1⟩ bits
  dsimp only at hle hbd heq hlt
  have hr : (batch_acc_reduce (small_process ⟨spins, true, 0⟩
      ⟨[], some b, 1⟩ bits)).1 = bits := by
    rcases lt_or_eq_of_le hle with h | h
    · obtain ⟨el, hel, hv, -, -⟩ := hlt h
      rw [hE, List.mem_singleton] at hel
      subst hel
      simp at hv
      omega
    · exact h
  obtain ⟨hcre, hcim⟩ := heq hr
  have hsize : small_group_size ⟨spins, true, 0⟩ ⟨[], some b, 1⟩ = 1 := by
    simp [small_group_size, batch_size]
  unfold get_state_info_small get_state_info_small_raw
  rw [if_neg (by simp)]
  dsimp only
  rw [hn, show snap (1 : ℚ) = 1 by norm_num [snap],
    if_neg (by norm_num : ¬(1 : ℚ) < 0), hr, hcre, hcim, hsize]
  simp

/- ### Claim C7: the identity shortcut and the identity-only group -/

/-- **C7.**  When `has_symmetries` is false, both paths return
`(b, 1 + 0i, 1)` for every pattern; and when the compiled group consists
of exactly the identity symmetry (one valid lane whose network applies
the identity permutation of the word, eigenvalue `1 + 0i`, spin inversion
absent), both paths return the same triple. -/
theorem C7_identity_shortcut :
    (∀ (hdr : basis_base_t) (body : small_basis_t) (bits : Nat),
      hdr.has_symmetries = false →
      get_state_info_small hdr body bits = some (bits, 1, 0, 1)) ∧
    (∀ (hdr : basis_base_t) (body : big_basis_t) (bits : Nat),
      hdr.has_symmetries = false →
      get_state_info_big hdr body bits = some (bits, 1, 0, 1)) ∧
    (∀ (spins bits : Nat) (b : batched_symmetry_t),
      bits < 2 ^ 64 →
      lanePerm b 0 = List.range 64 → laneRe b 0 = 1 → laneIm b 0 = 0 →
      get_state_info_small ⟨spins, true, 0⟩ ⟨[], some b, 1⟩ bits =
        some (bits, 1, 0, 1)) ∧
    (∀ (spins bits : Nat),
      bits < 2 ^ 512 →
      get_state_info_big ⟨spins, true, 0⟩
        ⟨[⟨List.range 512, 1, 0⟩]⟩ bits = some (bits, 1, 0, 1)) := by
  refine ⟨?_, ?_, ?_, ?_⟩
  · intro hdr body bits hsym
    unfold get_state_info_small get_state_info_small_raw
    rw [if_pos (by simp [hsym])]
    simp
  · intro hdr body bits hsym
    unfold get_state_info_big get_state_info_big_raw
    rw [if_pos (by simp [hsym])]
    simp
  · intro spins bits b hbits hperm hre him
    exact gsi_small_identity spins bits b hbits hperm hre him
  · intro spins bits hbits
    have hfold : List.foldl
        (big_step (0 : Int) ((0 : Int) : ℚ) (get_flip_mask_512 spins) bits)
        (scalar_init bits) [⟨List.range 512, 1, 0⟩] =
        ⟨bits, 1, 0, 1⟩ := by
      simp only [List.foldl_cons, List.foldl_nil]
      unfold big_step
      dsimp only
      rw [applyPerm_range 512 bits hbits]
      rw [if_neg (by norm_num : ¬(0 : Int) ≠ 0)]
      dsimp only [scalar_init]
      rw [if_neg (lt_irrefl bits), if_pos rfl, zero_add]
    unfold get_state_info_big get_state_info_big_raw
    rw [if_neg (by simp)]
    dsimp only
    rw [hfold]
    rw [show snap (1 : ℚ) = 1 by norm_num [snap]]
    rw [if_neg (by norm_num : ¬(1 : ℚ) < 0)]
    rw [if_neg (by norm_num : ¬(0 : Int) ≠ 0)]
    simp

/-- Witness for C7: both shortcut paths and both identity-only groups at
concrete inputs. -/
theorem C7_identity_shortcut_witness :
    get_state_info_small ⟨3, false, 0⟩ ⟨[], none, 0⟩ 5 = some (5, 1, 0, 1) ∧
    get_state_info_big ⟨3, false, 0⟩ ⟨[]⟩ 5 = some (5, 1, 0, 1) ∧
    get_state_info_small ⟨64, true, 0⟩
      ⟨[], some ⟨[List.range 64], [1], [0]⟩, 1⟩ 7 = some (7, 1, 0, 1) ∧
    get_state_info_big ⟨512, true, 0⟩ ⟨[⟨List.range 512, 1, 0⟩]⟩ 9 =
      some (9, 1, 0, 1) :=
  ⟨C7_identity_shortcut.1 ⟨3, false, 0⟩ ⟨[], none, 0⟩ 5 rfl,
   C7_identity_shortcut.2.1 ⟨3, false, 0⟩ ⟨[]⟩ 5 rfl,
   C7_identity_shortcut.2.2.1 64 7 ⟨[List.range 64], [1], [0]⟩
     (by norm_num) rfl rfl rfl,
   C7_identity_shortcut.2.2.2 512 9 (by norm_num)⟩

/- ### Claim C3: the norm formula -/

/-- **C3.**  On both paths, a successful `get_state_info` call with
symmetries present returns norm `sqrt(S / |G_eff|)`, where `S` is the
stabilizer sum (the sign-adjusted eigenvalue real parts summed over the
extended-orbit elements equal to the pattern) snapped to zero within
`1e-5`, and `|G_eff|` is the element count times 2 when spin inversion is
enabled; the snapped sum is never negative on success, so neither is the
returned norm. -/
theorem C3_norm_formula :
    (∀ (hdr : basis_base_t) (body : small_basis_t) (bits r : Nat)
      (cre cim : ℚ) (nm : ℝ),
      hdr.has_symmetries = true →
      get_state_info_small hdr body bits = some (r, cre, cim, nm) →
      0 ≤ snap (stab_sum bits (small_elems hdr body bits)) ∧
      nm = Real.sqrt ((snap (stab_sum bits (small_elems hdr body bits)) /
        (small_group_size hdr body : ℚ) : ℚ) : ℝ) ∧
      0 ≤ nm) ∧
    (∀ (hdr : basis_base_t) (body : big_basis_t) (bits r : Nat)
      (cre cim : ℚ) (nm : ℝ),
      hdr.has_symmetries = true →
      get_state_info_big hdr body bits = some (r, cre, cim, nm) →
      0 ≤ snap (stab_sum bits (big_elems hdr body bits)) ∧
      nm = Real.sqrt ((snap (stab_sum bits (big_elems hdr body bits)) /
        ((((if hdr.spin_inversion ≠ 0 then 1 else 0) + 1) *
          body.symmetries.length : Nat) : ℚ) : ℚ) : ℝ) ∧
      0 ≤ nm) := by
  constructor
  · intro hdr body bits r cre cim nm hsym h
    rcases get_state_info_small_some h with ⟨hf, -⟩ | ⟨-, -, -, -, hneg, hnm⟩
    · simp [hsym] at hf
    · rw [small_reduce_n] at hneg hnm
      exact ⟨not_lt.mp hneg, hnm, by rw [hnm]; exact Real.sqrt_nonneg _⟩
  · intro hdr body bits r cre cim nm hsym h
    rcases get_state_info_big_some h with ⟨hf, -⟩ | ⟨-, -, -, -, hneg, hnm⟩
    · simp [hsym] at hf
    · rw [big_acc_n] at hneg hnm
      exact ⟨not_lt.mp hneg, hnm, by rw [hnm]; exact Real.sqrt_nonneg _⟩

/-- Witness for C3 on the identity-only group at pattern 3: the snapped
stabilizer sum is nonnegative and the returned norm 1 is its normalized
square root. -/
theorem C3_norm_formula_witness :
    0 ≤ snap (stab_sum 3 (small_elems ⟨64, true, 0⟩
      ⟨[], some ⟨[List.range 64], [1], [0]⟩, 1⟩ 3)) ∧
    (1 : ℝ) = Real.sqrt ((snap (stab_sum 3 (small_elems ⟨64, true, 0⟩
      ⟨[], some ⟨[List.range 64], [1], [0]⟩, 1⟩ 3)) /
      (small_group_size ⟨64, true, 0⟩
        ⟨[], some ⟨[List.range 64], [1], [0]⟩, 1⟩ : ℚ) : ℚ) : ℝ) ∧
    0 ≤ (1 : ℝ) :=
  C3_norm_formula.1 ⟨64, true, 0⟩ ⟨[], some ⟨[List.range 64], [1], [0]⟩, 1⟩
    3 3 1 0 1 rfl
    (gsi_small_identity 64 3 ⟨[List.range 64], [1], [0]⟩ (by norm_num)
      rfl rfl rfl)

/- ### Claim C5: the SIMD path against the scalar path -/

/-- **C5 (amended).**  On widths of at most 64 spins, whenever any two
extended-orbit elements sharing a value also share their eigenvalue, the
SIMD batched path agrees exactly with the scalar path run over the flat
compiled-symmetry list in sequence order.  (Without the tie condition the
two paths can return different characters: the reduction tree and the
sequential scan break value ties differently.) -/
theorem C5_simd_scalar_amended (hdr : basis_base_t) (body : small_basis_t)
    (bits : Nat) (hspins : hdr.number_spins ≤ 64)
    (hcnt : body.number_other_symmetries < 8)
    (hnone : body.other_symmetries = none →
      body.number_other_symmetries = 0)
    (htie : ∀ el1 ∈ small_elems hdr body bits,
      ∀ el2 ∈ small_elems hdr body bits,
      el1.val = el2.val → el1.re = el2.re ∧ el1.im = el2.im) :
    get_state_info_small hdr body bits =
      get_state_info_big hdr ⟨small_syms body⟩ bits := by
  by_cases hsym : hdr.has_symmetries = true
  · have helems : big_elems hdr ⟨small_syms body⟩ bits =
        small_elems hdr body bits := by
      unfold big_elems small_elems
      rw [← get_flip_mask_64_eq hdr.number_spins hspins]
    have htrip := TripInv_eq (small_TripInv hdr body bits)
      (helems ▸ big_acc_TripInv hdr ⟨small_syms body⟩ bits) htie
    simp only [Prod.mk.injEq] at htrip
    obtain ⟨hr, hcre, hcim⟩ := htrip
    have hn : (batch_acc_reduce (small_process hdr body bits)).2.2.2 =
        (big_acc hdr ⟨small_syms body⟩ bits).n := by
      rw [small_reduce_n, big_acc_n, helems]
    have hsize : small_group_size hdr body =
        ((if hdr.spin_inversion ≠ 0 then 1 else 0) + 1) *
          (small_syms body).length := by
      unfold small_group_size
      rw [small_syms_length body hcnt hnone]
    unfold get_state_info_small get_state_info_big
    by_cases hneg :
        snap ((batch_acc_reduce (small_process hdr body bits)).2.2.2) < 0
    · rw [get_state_info_small_raw_none hdr body bits hsym hneg,
        get_state_info_big_raw_none hdr ⟨small_syms body⟩ bits hsym
          (by rw [← hn]; exact hneg)]
    · rw [get_state_info_small_raw_eval hdr body bits hsym hneg,
        get_state_info_big_raw_eval hdr ⟨small_syms body⟩ bits hsym
          (by rw [← hn]; exact hneg)]
      rw [hr, hcre, hcim, hn, hsize]
  · unfold get_state_info_small get_state_info_small_raw
      get_state_info_big get_state_info_big_raw
    rw [if_pos hsym, if_pos hsym]

/-- Witness for the amended C5: a single bit-swap symmetry, where both
paths return the same result. -/
theorem C5_simd_scalar_amended_witness :
    get_state_info_small ⟨2, true, 0⟩ ⟨[], some ⟨[[1, 0]], [1], [0]⟩, 1⟩ 2 =
      get_state_info_big ⟨2, true, 0⟩
        ⟨small_syms ⟨[], some ⟨[[1, 0]], [1], [0]⟩, 1⟩⟩ 2 :=
  C5_simd_scalar_amended ⟨2, true, 0⟩ ⟨[], some ⟨[[1, 0]], [1], [0]⟩, 1⟩ 2
    (by decide) (by decide) (by decide) (by decide)

/-- Counterexample to C5 as stated: two lanes mapping the pattern `0b10`
to the same smaller value `0b01` with eigenvalues `+1` and `-1`.  The
reduction tree's tie-breaking picks lane 1's character `-1`, while the
scalar scan over the flat list in sequence order keeps lane 0's `+1`. -/
theorem C5_simd_scalar_counterexample :
    get_state_info_small ⟨2, true, 0⟩
        ⟨[], some ⟨[[1, 0], [1, 0]], [1, -1], [0, 0]⟩, 2⟩ 2 ≠
      get_state_info_big ⟨2, true, 0⟩
        ⟨small_syms ⟨[], some ⟨[[1, 0], [1, 0]], [1, -1], [0, 0]⟩, 2⟩⟩ 2 := by
  have hn : (batch_acc_reduce (small_process ⟨2, true, 0⟩
      ⟨[], some ⟨[[1, 0], [1, 0]], [1, -1], [0, 0]⟩, 2⟩ 2)).2.2.2 = 0 := by
    rw [batch_acc_reduce_n,
      show (small_process ⟨2, true, 0⟩
        ⟨[], some ⟨[[1, 0], [1, 0]], [1, -1], [0, 0]⟩, 2⟩ 2).n 0 = 0 from
        by decide,
      show (small_process ⟨2, true, 0⟩
        ⟨[], some ⟨[[1, 0], [1, 0]], [1, -1], [0, 0]⟩, 2⟩ 2).n 1 = 0 from
        by decide,
      show (small_process ⟨2, true, 0⟩
        ⟨[], some ⟨[[1, 0], [1, 0]], [1, -1], [0, 0]⟩, 2⟩ 2).n 2 = 0 from
        by decide,
      show (small_process ⟨2, true, 0⟩
        ⟨[], some ⟨[[1, 0], [1, 0]], [1, -1], [0, 0]⟩, 2⟩ 2).n 3 = 0 from
        by decide,
      show (small_process ⟨2, true, 0⟩
        ⟨[], some ⟨[[1, 0], [1, 0]], [1, -1], [0, 0]⟩, 2⟩ 2).n 4 = 0 from
        by decide,
      show (small_process ⟨2, true, 0⟩
        ⟨[], some ⟨[[1, 0], [1, 0]], [1, -1], [0, 0]⟩, 2⟩ 2).n 5 = 0 from
        by decide,
      show (small_process ⟨2, true, 0⟩
        ⟨[], some ⟨[[1, 0], [1, 0]], [1, -1], [0, 0]⟩, 2⟩ 2).n 6 = 0 from
        by decide,
      show (small_process ⟨2, true, 0⟩
        ⟨[], some ⟨[[1, 0], [1, 0]], [1, -1], [0, 0]⟩, 2⟩ 2).n 7 = 0 from
        by decide]
    norm_num
  have hbn : (big_acc ⟨2, true, 0⟩
      ⟨small_syms ⟨[], some ⟨[[1, 0], [1, 0]], [1, -1], [0, 0]⟩, 2⟩⟩ 2).n =
      0 := by decide
  intro h
  unfold get_state_info_small get_state_info_big at h
  rw [get_state_info_small_raw_eval _ _ _ rfl
      (by rw [hn]; norm_num [snap]),
    get_state_info_big_raw_eval _ _ _ rfl
      (by rw [hbn]; norm_num [snap])] at h
  rw [show (batch_acc_reduce (small_process ⟨2, true, 0⟩
      ⟨[], some ⟨[[1, 0], [1, 0]], [1, -1], [0, 0]⟩, 2⟩ 2)).2.1 =
      (-1 : ℚ) from by decide,
    show (big_acc ⟨2, true, 0⟩
      ⟨small_syms ⟨[], some ⟨[[1, 0], [1, 0]], [1, -1], [0, 0]⟩, 2⟩⟩ 2).eRe =
      (1 : ℚ) from by decide] at h
  simp only [Option.map_some', Option.some.injEq, Prod.mk.injEq] at h
  exact absurd h.2.1 (by norm_num)

/- ### Claim C4: is_representative against get_state_info -/

/-- A compiled symmetry contributes a strictly smaller extended-orbit
element exactly when its permuted value, or its flipped value when spin
inversion is enabled, is smaller than the pattern. -/
lemma sym_elems_smaller (inv : Int) (coeff : ℚ) (mask bits : Nat)
    (s : big_symmetry_t) :
    (∃ el ∈ sym_elems inv coeff mask bits s, el.val < bits) ↔
      (applyPerm s.perm bits < bits ∨
        (inv ≠ 0 ∧ applyPerm s.perm bits ^^^ mask < bits)) := by
  unfold sym_elems
  by_cases hinv : inv ≠ 0
  · rw [if_pos hinv]
    simp [hinv]
  · rw [if_neg hinv]
    simp [hinv]

/-- Membership in the flat compiled-symmetry list: a batch lane or a
valid remainder lane. -/
lemma mem_small_syms (body : small_basis_t) (s : big_symmetry_t) :
    s ∈ small_syms body ↔
      ((∃ b ∈ body.batched_symmetries, ∃ i : Fin 8, s = lane_sym b i) ∨
       (∃ b, body.other_symmetries = some b ∧ ∃ i : Fin 8,
         i.val < body.number_other_symmetries ∧ s = lane_sym b i)) := by
  unfold small_syms
  rw [List.mem_append]
  constructor
  · intro h
    rcases h with hA | hB
    · left
      rw [List.mem_flatMap] at hA
      obtain ⟨b, hb, hmap⟩ := hA
      rw [List.mem_map] at hmap
      obtain ⟨i, -, rfl⟩ := hmap
      exact ⟨b, hb, i, rfl⟩
    · right
      rcases hother : body.other_symmetries with _ | b
      · simp [hother] at hB
      · simp only [hother] at hB
        rw [List.mem_map] at hB
        obtain ⟨i, hfil, rfl⟩ := hB
        rw [List.mem_filter] at hfil
        exact ⟨b, rfl, i, by simpa using hfil.2, rfl⟩
  · intro h
    rcases h with ⟨b, hb, i, rfl⟩ | ⟨b, hother, i, hcnt, rfl⟩
    · exact Or.inl (List.mem_flatMap.mpr ⟨b, hb,
        List.mem_map.mpr ⟨i, mem_lanes8 i, rfl⟩⟩)
    · right
      simp only [hother]
      exact List.mem_map.mpr ⟨i,
        List.mem_filter.mpr ⟨mem_lanes8 i, by simpa using hcnt⟩, rfl⟩

/-- A strictly smaller extended-orbit element exists exactly when some
compiled symmetry produces one. -/
lemma small_elems_smaller_iff (hdr : basis_base_t) (body : small_basis_t)
    (bits : Nat) :
    (∃ el ∈ small_elems hdr body bits, el.val < bits) ↔
      (∃ s ∈ small_syms body,
        applyPerm s.perm bits < bits ∨
        (hdr.spin_inversion ≠ 0 ∧
          applyPerm s.perm bits ^^^ get_flip_mask_64 hdr.number_spins <
            bits)) := by
  unfold small_elems all_elems
  constructor
  · rintro ⟨el, hel, hlt⟩
    rw [List.mem_flatMap] at hel
    obtain ⟨s, hs, hel⟩ := hel
    exact ⟨s, hs, (sym_elems_smaller _ _ _ _ s).mp ⟨el, hel, hlt⟩⟩
  · rintro ⟨s, hs, h⟩
    obtain ⟨el, hel, hlt⟩ := (sym_elems_smaller hdr.spin_inversion
      (hdr.spin_inversion : ℚ) (get_flip_mask_64 hdr.number_spins) bits
      s).mpr h
    exact ⟨el, List.mem_flatMap.mpr ⟨s, hs, hel⟩, hlt⟩

/-- A full-batch step never changes the broadcast original pattern. -/
lemma small_batch_step_original (inv : Int) (coeff : ℚ) (mask bits : Nat)
    (a : batch_acc_64_t) (b : batched_symmetry_t) :
    (small_batch_step inv coeff mask bits a b).original = a.original := by
  unfold small_batch_step batch_acc_update
  split_ifs <;> rfl

/-- The per-lane stabilizer update of a full-batch step with spin
inversion, in the form accumulated by the norm-only scan. -/
lemma small_batch_step_n_inv (inv : Int) (coeff : ℚ) (mask bits : Nat)
    (hinv : inv ≠ 0) (hco : inv = 1 → coeff = 1) (a : batch_acc_64_t)
    (b : batched_symmetry_t) (nv : Fin 8 → ℚ)
    (horig : ∀ i, a.original i = bits) (hn : ∀ i, a.n i = nv i)
    (i : Fin 8) :
    (small_batch_step inv coeff mask bits a b).n i =
      (if batch_apply bits b i ^^^ mask = bits then
        (if batch_apply bits b i = bits then nv i + laneRe b i else nv i) +
          coeff * laneRe b i
       else if batch_apply bits b i = bits then nv i + laneRe b i
       else nv i) := by
  unfold small_batch_step batch_acc_update
  dsimp only
  rw [if_pos hinv]
  dsimp only
  rw [horig i, hn i]
  by_cases h1 : inv ≠ 1
  · rw [if_pos h1]
  · rw [if_neg h1, hco (not_not.mp h1), one_mul]

/-- The per-lane stabilizer update of a full-batch step without spin
inversion. -/
lemma small_batch_step_n_noinv (inv : Int) (coeff : ℚ) (mask bits : Nat)
    (hinv : ¬inv ≠ 0) (a : batch_acc_64_t) (b : batched_symmetry_t)
    (nv : Fin 8 → ℚ) (horig : ∀ i, a.original i = bits)
    (hn : ∀ i, a.n i = nv i) (i : Fin 8) :
    (small_batch_step inv coeff mask bits a b).n i =
      (if batch_apply bits b i = bits then nv i + laneRe b i else nv i) := by
  unfold small_batch_step batch_acc_update
  dsimp only
  rw [if_neg hinv]
  dsimp only
  rw [horig i, hn i]

/-- The per-lane stabilizer update of the remainder step with spin
inversion. -/
lemma small_other_step_n_inv (inv : Int) (coeff : ℚ)
    (mask bits count : Nat) (hinv : inv ≠ 0) (hco : inv = 1 → coeff = 1)
    (a : batch_acc_64_t) (b : batched_symmetry_t) (nv : Fin 8 → ℚ)
    (horig : ∀ i, a.original i = bits) (hn : ∀ i, a.n i = nv i)
    (i : Fin 8) :
    (small_other_step inv coeff mask bits count a b).n i =
      (if batch_apply bits b i ^^^ mask = bits ∧ i.val < count then
        (if batch_apply bits b i = bits ∧ i.val < count then
          nv i + laneRe b i else nv i) + coeff * laneRe b i
       else if batch_apply bits b i = bits ∧ i.val < count then
         nv i + laneRe b i
       else nv i) := by
  unfold small_other_step batch_acc_update_first_few
  dsimp only
  rw [if_pos hinv]
  dsimp only
  rw [horig i, hn i]
  by_cases h1 : inv ≠ 1
  · rw [if_pos h1]
  · rw [if_neg h1, hco (not_not.mp h1), one_mul]

/-- The per-lane stabilizer update of the remainder step without spin
inversion. -/
lemma small_other_step_n_noinv (inv : Int) (coeff : ℚ)
    (mask bits count : Nat) (hinv : ¬inv ≠ 0) (a : batch_acc_64_t)
    (b : batched_symmetry_t) (nv : Fin 8 → ℚ)
    (horig : ∀ i, a.original i = bits) (hn : ∀ i, a.n i = nv i)
    (i : Fin 8) :
    (small_other_step inv coeff mask bits count a b).n i =
      (if batch_apply bits b i = bits ∧ i.val < count then
        nv i + laneRe b i
       else nv i) := by
  unfold small_other_step batch_acc_update_first_few
  dsimp only
  rw [if_neg hinv]
  dsimp only
  rw [horig i, hn i]

/-- Specification of the norm-only batch scan: it returns `none` exactly
on encountering a strictly smaller lane value, and otherwise its running
sums coincide with the full accumulator's stabilizer sums. -/
lemma is_rep_go_spec (inv : Int) (coeff : ℚ) (mask bits : Nat)
    (hco : inv = 1 → coeff = 1) :
    ∀ (bs : List batched_symmetry_t) (a : batch_acc_64_t) (nv : Fin 8 → ℚ),
      (∀ i, a.original i = bits) → (∀ i, a.n i = nv i) →
      ((is_rep_go inv coeff mask bits bs nv = none →
        ∃ b ∈ bs, ∃ i : Fin 8, batch_apply bits b i < bits ∨
          (inv ≠ 0 ∧ batch_apply bits b i ^^^ mask < bits)) ∧
       (∀ nv', is_rep_go inv coeff mask bits bs nv = some nv' →
         (∀ b ∈ bs, ∀ i : Fin 8, ¬batch_apply bits b i < bits ∧
           (inv ≠ 0 → ¬batch_apply bits b i ^^^ mask < bits)) ∧
         (∀ i, (bs.foldl (small_batch_step inv coeff mask bits)
           a).original i = bits) ∧
         (∀ i, (bs.foldl (small_batch_step inv coeff mask bits) a).n i =
           nv' i))) := by
  intro bs
  induction bs with
  | nil =>
    intro a nv horig hn
    constructor
    · intro hnone
      simp only [is_rep_go] at hnone
      exact Option.noConfusion hnone
    · intro nv' hsome
      simp only [is_rep_go, Option.some.injEq] at hsome
      subst hsome
      exact ⟨fun b hb => absurd hb (List.not_mem_nil b), horig, hn⟩
  | cons b rest ih =>
    intro a nv horig hn
    by_cases h1 : ∃ i : Fin 8, batch_apply bits b i < bits
    · constructor
      · intro _
        obtain ⟨i, hi⟩ := h1
        exact ⟨b, List.mem_cons_self b rest, i, Or.inl hi⟩
      · intro nv' hsome
        simp only [is_rep_go] at hsome
        rw [if_pos h1] at hsome
        exact Option.noConfusion hsome
    · by_cases hinv : inv ≠ 0
      · by_cases h2 : ∃ i : Fin 8, batch_apply bits b i ^^^ mask < bits
        · constructor
          · intro _
            obtain ⟨i, hi⟩ := h2
            exact ⟨b, List.mem_cons_self b rest, i, Or.inr ⟨hinv, hi⟩⟩
          · intro nv' hsome
            simp only [is_rep_go] at hsome
            rw [if_neg h1, if_pos hinv, if_pos h2] at hsome
            exact Option.noConfusion hsome
        · constructor
          · intro hnone
            simp only [is_rep_go] at hnone
            rw [if_neg h1, if_pos hinv, if_neg h2] at hnone
            obtain ⟨b', hb', hx⟩ :=
              (ih (small_batch_step inv coeff mask bits a b) _
                (fun i => by
                  rw [small_batch_step_original]
                  exact horig i)
                (fun i => small_batch_step_n_inv inv coeff mask bits hinv
                  hco a b nv horig hn i)).1 hnone
            exact ⟨b', List.mem_cons_of_mem b hb', hx⟩
          · intro nv' hsome
            simp only [is_rep_go] at hsome
            rw [if_neg h1, if_pos hinv, if_neg h2] at hsome
            obtain ⟨hns, horf, hnf⟩ :=
              (ih (small_batch_step inv coeff mask bits a b) _
                (fun i => by
                  rw [small_batch_step_original]
                  exact horig i)
                (fun i => small_batch_step_n_inv inv coeff mask bits hinv
                  hco a b nv horig hn i)).2 nv' hsome
            refine ⟨?_, ?_, ?_⟩
            · intro b' hb' i
              rcases List.mem_cons.mp hb' with rfl | hb'
              · exact ⟨fun h => h1 ⟨i, h⟩, fun _ h => h2 ⟨i, h⟩⟩
              · exact hns b' hb' i
            · intro i
              rw [List.foldl_cons]
              exact horf i
            · intro i
              rw [List.foldl_cons]
              exact hnf i
      · constructor
        · intro hnone
          simp only [is_rep_go] at hnone
          rw [if_neg h1, if_neg hinv] at hnone
          obtain ⟨b', hb', hx⟩ :=
            (ih (small_batch_step inv coeff mask bits a b) _
              (fun i => by
                rw [small_batch_step_original]
                exact horig i)
              (fun i => small_batch_step_n_noinv inv coeff mask bits hinv
                a b nv horig hn i)).1 hnone
          exact ⟨b', List.mem_cons_of_mem b hb', hx⟩
        · intro nv' hsome
          simp only [is_rep_go] at hsome
          rw [if_neg h1, if_neg hinv] at hsome
          obtain ⟨hns, horf, hnf⟩ :=
            (ih (small_batch_step inv coeff mask bits a b) _
              (fun i => by
                rw [small_batch_step_original]
                exact horig i)
              (fun i => small_batch_step_n_noinv inv coeff mask bits hinv
                a b nv horig hn i)).2 nv' hsome
          refine ⟨?_, ?_, ?_⟩
          · intro b' hb' i
            rcases List.mem_cons.mp hb' with rfl | hb'
            · exact ⟨fun h => h1 ⟨i, h⟩, fun hiv => absurd hiv hinv⟩
            · exact hns b' hb' i
          · intro i
            rw [List.foldl_cons]
            exact horf i
          · intro i
            rw [List.foldl_cons]
            exact hnf i

/-- Specification of the norm-only remainder scan. -/
lemma is_rep_other_spec (inv : Int) (coeff : ℚ) (mask bits count : Nat)
    (hco : inv = 1 → coeff = 1) (b : batched_symmetry_t)
    (a : batch_acc_64_t) (nv : Fin 8 → ℚ)
    (horig : ∀ i, a.original i = bits) (hn : ∀ i, a.n i = nv i) :
    ((is_rep_other inv coeff mask bits count nv b = none →
      ∃ i : Fin 8, (batch_apply bits b i < bits ∧ i.val < count) ∨
        (inv ≠ 0 ∧ batch_apply bits b i ^^^ mask < bits ∧
          i.val < count)) ∧
     (∀ nv2, is_rep_other inv coeff mask bits count nv b = some nv2 →
       (∀ i : Fin 8, ¬(batch_apply bits b i < bits ∧ i.val < count) ∧
         (inv ≠ 0 →
           ¬(batch_apply bits b i ^^^ mask < bits ∧ i.val < count))) ∧
       (∀ i, (small_other_step inv coeff mask bits count a b).n i =
         nv2 i))) := by
  by_cases h1 : ∃ i : Fin 8, batch_apply bits b i < bits ∧ i.val < count
  · constructor
    · intro _
      obtain ⟨i, hi⟩ := h1
      exact ⟨i, Or.inl hi⟩
    · intro nv2 hsome
      unfold is_rep_other at hsome
      dsimp only at hsome
      rw [if_pos h1] at hsome
      exact Option.noConfusion hsome
  · by_cases hinv : inv ≠ 0
    · by_cases h2 : ∃ i : Fin 8,
          batch_apply bits b i ^^^ mask < bits ∧ i.val < count
      · constructor
        · intro _
          obtain ⟨i, hi⟩ := h2
          exact ⟨i, Or.inr ⟨hinv, hi⟩⟩
        · intro nv2 hsome
          unfold is_rep_other at hsome
          dsimp only at hsome
          rw [if_neg h1, if_pos hinv, if_pos h2] at hsome
          exact Option.noConfusion hsome
      · constructor
        · intro hnone
          unfold is_rep_other at hnone
          dsimp only at hnone
          rw [if_neg h1, if_pos hinv, if_neg h2] at hnone
          exact Option.noConfusion hnone
        · intro nv2 hsome
          unfold is_rep_other at hsome
          dsimp only at hsome
          rw [if_neg h1, if_pos hinv, if_neg h2] at hsome
          obtain rfl := Option.some.inj hsome
          refine ⟨?_, ?_⟩
          · intro i
            exact ⟨fun h => h1 ⟨i, h⟩, fun _ h => h2 ⟨i, h⟩⟩
          · intro i
            exact small_other_step_n_inv inv coeff mask bits count hinv
              hco a b nv horig hn i
    · constructor
      · intro hnone
        unfold is_rep_other at hnone
        dsimp only at hnone
        rw [if_neg h1, if_neg hinv] at hnone
        exact Option.noConfusion hnone
      · intro nv2 hsome
        unfold is_rep_other at hsome
        dsimp only at hsome
        rw [if_neg h1, if_neg hinv] at hsome
        obtain rfl := Option.some.inj hsome
        refine ⟨?_, ?_⟩
        · intro i
          exact ⟨fun h => h1 ⟨i, h⟩, fun hiv => absurd hiv hinv⟩
        · intro i
          exact small_other_step_n_noinv inv coeff mask bits count hinv
            a b nv horig hn i

/-- A nonempty extended-orbit element list forces a positive effective
group size. -/
lemma small_group_size_pos (hdr : basis_base_t) (body : small_basis_t)
    (bits : Nat) (hne : small_elems hdr body bits ≠ []) :
    0 < small_group_size hdr body := by
  by_contra hz
  push_neg at hz
  have hz0 : small_group_size hdr body = 0 := Nat.le_zero.mp hz
  unfold small_group_size at hz0
  rcases Nat.mul_eq_zero.mp hz0 with hf | hx
  · split_ifs at hf
  · unfold batch_size at hx
    have hlen : body.batched_symmetries.length = 0 := by omega
    have hcnt : body.number_other_symmetries = 0 := by omega
    apply hne
    unfold small_elems all_elems small_syms
    rw [List.length_eq_zero.mp hlen]
    rcases hother : body.other_symmetries with _ | b
    · simp [hother]
    · simp only [hother]
      rw [hcnt]
      have hfil : (lanes8.filter fun i => i.val < 0) = [] := by decide
      rw [hfil]
      simp

/-- When some extended-orbit element is strictly smaller than the
pattern, the short-circuiting scan answers `false`. -/
lemma is_rep_smaller_false (hdr : basis_base_t) (body : small_basis_t)
    (bits : Nat) (hsym : hdr.has_symmetries = true)
    (hsm : ∃ el ∈ small_elems hdr body bits, el.val < bits) :
    is_representative_small hdr body bits = some false := by
  have hco : hdr.spin_inversion = 1 → ((hdr.spin_inversion : ℚ)) = 1 := by
    intro h
    rw [h]
    norm_num
  obtain ⟨s, hs, hcond⟩ := (small_elems_smaller_iff hdr body bits).mp hsm
  rw [mem_small_syms] at hs
  unfold is_representative_small
  rw [if_neg (by simp [hsym])]
  dsimp only
  rcases hgo : is_rep_go hdr.spin_inversion (hdr.spin_inversion : ℚ)
      (get_flip_mask_64 hdr.number_spins) bits body.batched_symmetries
      (fun _ => 0) with _ | nv
  · simp only [hgo]
  · obtain ⟨hns, horf, hnf⟩ := (is_rep_go_spec hdr.spin_inversion
      (hdr.spin_inversion : ℚ) (get_flip_mask_64 hdr.number_spins) bits
      hco body.batched_symmetries (batch_acc_init bits) (fun _ => 0)
      (fun _ => rfl) (fun _ => rfl)).2 nv hgo
    rcases hs with ⟨b, hb, i, rfl⟩ | ⟨b, hother, i, hcnt, rfl⟩
    · exfalso
      have hni := hns b hb i
      rcases hcond with h | ⟨hiv, h⟩
      · exact hni.1 h
      · exact hni.2 hiv h
    · simp only [hgo, hother]
      rcases hro : is_rep_other hdr.spin_inversion
          (hdr.spin_inversion : ℚ) (get_flip_mask_64 hdr.number_spins)
          bits body.number_other_symmetries nv b with _ | nv2
      · simp only [hro]
      · exfalso
        obtain ⟨hns2, -⟩ := (is_rep_other_spec hdr.spin_inversion
          (hdr.spin_inversion : ℚ) (get_flip_mask_64 hdr.number_spins)
          bits body.number_other_symmetries hco b
          (body.batched_symmetries.foldl
            (small_batch_step hdr.spin_inversion (hdr.spin_inversion : ℚ)
              (get_flip_mask_64 hdr.number_spins) bits)
            (batch_acc_init bits)) nv horf hnf).2 nv2 hro
        have hni := hns2 i
        rcases hcond with h | ⟨hiv, h⟩
        · exact hni.1 ⟨h, hcnt⟩
        · exact hni.2 hiv ⟨h, hcnt⟩

/-- When no extended-orbit element is strictly smaller than the pattern,
the short-circuiting scan reduces to the sign test of the snapped
stabilizer sum of the full SIMD scan. -/
lemma is_rep_no_smaller_eval (hdr : basis_base_t) (body : small_basis_t)
    (bits : Nat) (hsym : hdr.has_symmetries = true)
    (hno : ∀ el ∈ small_elems hdr body bits, ¬el.val < bits) :
    is_representative_small hdr body bits =
      if snap ((batch_acc_reduce (small_process hdr body bits)).2.2.2) < 0
      then none
      else some (decide (0 < snap
        ((batch_acc_reduce (small_process hdr body bits)).2.2.2))) := by
  have hco : hdr.spin_inversion = 1 → ((hdr.spin_inversion : ℚ)) = 1 := by
    intro h
    rw [h]
    norm_num
  have hno' : ¬∃ s ∈ small_syms body, applyPerm s.perm bits < bits ∨
      (hdr.spin_inversion ≠ 0 ∧ applyPerm s.perm bits ^^^
        get_flip_mask_64 hdr.number_spins < bits) := by
    intro hex
    obtain ⟨el, hel, hlt⟩ := (small_elems_smaller_iff hdr body bits).mpr hex
    exact hno el hel hlt
  unfold is_representative_small
  rw [if_neg (by simp [hsym])]
  dsimp only
  rcases hgo : is_rep_go hdr.spin_inversion (hdr.spin_inversion : ℚ)
      (get_flip_mask_64 hdr.number_spins) bits body.batched_symmetries
      (fun _ => 0) with _ | nv
  · exfalso
    obtain ⟨b, hb, i, hx⟩ := (is_rep_go_spec hdr.spin_inversion
      (hdr.spin_inversion : ℚ) (get_flip_mask_64 hdr.number_spins) bits
      hco body.batched_symmetries (batch_acc_init bits) (fun _ => 0)
      (fun _ => rfl) (fun _ => rfl)).1 hgo
    apply hno'
    exact ⟨lane_sym b i,
      (mem_small_syms body _).mpr (Or.inl ⟨b, hb, i, rfl⟩), hx⟩
  · obtain ⟨-, horf, hnf⟩ := (is_rep_go_spec hdr.spin_inversion
      (hdr.spin_inversion : ℚ) (get_flip_mask_64 hdr.number_spins) bits
      hco body.batched_symmetries (batch_acc_init bits) (fun _ => 0)
      (fun _ => rfl) (fun _ => rfl)).2 nv hgo
    rcases hother : body.other_symmetries with _ | b
    · have hsp : small_process hdr body bits =
          body.batched_symmetries.foldl
            (small_batch_step hdr.spin_inversion (hdr.spin_inversion : ℚ)
              (get_flip_mask_64 hdr.number_spins) bits)
            (batch_acc_init bits) := by
        unfold small_process
        rw [hother]
      simp only [hgo, hother]
      rw [batch_acc_reduce_n, hsp]
      rw [hnf 0, hnf 1, hnf 2, hnf 3, hnf 4, hnf 5, hnf 6, hnf 7]
    · have hsp : small_process hdr body bits =
          small_other_step hdr.spin_inversion (hdr.spin_inversion : ℚ)
            (get_flip_mask_64 hdr.number_spins) bits
            body.number_other_symmetries
            (body.batched_symmetries.foldl
              (small_batch_step hdr.spin_inversion
                (hdr.spin_inversion : ℚ)
                (get_flip_mask_64 hdr.number_spins) bits)
              (batch_acc_init bits)) b := by
        unfold small_process
        rw [hother]
      simp only [hgo, hother]
      rcases hro : is_rep_other hdr.spin_inversion
          (hdr.spin_inversion : ℚ) (get_flip_mask_64 hdr.number_spins)
          bits body.number_other_symmetries nv b with _ | nv2
      · exfalso
        obtain ⟨i, hx⟩ := (is_rep_other_spec hdr.spin_inversion
          (hdr.spin_inversion : ℚ) (get_flip_mask_64 hdr.number_spins)
          bits body.number_other_symmetries hco b
          (body.batched_symmetries.foldl
            (small_batch_step hdr.spin_inversion (hdr.spin_inversion : ℚ)
              (get_flip_mask_64 hdr.number_spins) bits)
            (batch_acc_init bits)) nv horf hnf).1 hro
        apply hno'
        refine ⟨lane_sym b i, (mem_small_syms body _).mpr
          (Or.inr ⟨b, hother, i, ?_, rfl⟩), ?_⟩
        · rcases hx with ⟨-, hc⟩ | ⟨-, -, hc⟩ <;> exact hc
        · rcases hx with ⟨h, -⟩ | ⟨hiv, h, -⟩
          · exact Or.inl h
          · exact Or.inr ⟨hiv, h⟩
      · obtain ⟨-, hnf2⟩ := (is_rep_other_spec hdr.spin_inversion
          (hdr.spin_inversion : ℚ) (get_flip_mask_64 hdr.number_spins)
          bits body.number_other_symmetries hco b
          (body.batched_symmetries.foldl
            (small_batch_step hdr.spin_inversion (hdr.spin_inversion : ℚ)
              (get_flip_mask_64 hdr.number_spins) bits)
            (batch_acc_init bits)) nv horf hnf).2 nv2 hro
        simp only [hro]
        rw [batch_acc_reduce_n, hsp]
        rw [hnf2 0, hnf2 1, hnf2 2, hnf2 3, hnf2 4, hnf2 5, hnf2 6,
          hnf2 7]

/-- **C4.**  `is_representative` answers `true` exactly when
`get_state_info` on the same inputs returns the pattern itself as the
representative together with a strictly positive norm, even though the
scan may stop early on a smaller orbit element. -/
theorem C4_is_representative_iff (hdr : basis_base_t)
    (body : small_basis_t) (bits : Nat) :
    is_representative_small hdr body bits = some true ↔
      ∃ cre cim nm, get_state_info_small hdr body bits =
        some (bits, cre, cim, nm) ∧ (0 : ℝ) < nm := by
  by_cases hsym : hdr.has_symmetries = true
  · by_cases hsm : ∃ el ∈ small_elems hdr body bits, el.val < bits
    · refine iff_of_false ?_ ?_
      · rw [is_rep_smaller_false hdr body bits hsym hsm]
        simp
      · rintro ⟨cre, cim, nm, hg, -⟩
        rcases get_state_info_small_some hg with ⟨hf, -⟩ |
          ⟨-, hr', -, -, -, -⟩
        · simp [hsym] at hf
        · obtain ⟨el, hel, hlt⟩ := hsm
          obtain ⟨-, hbd, -, -⟩ := small_TripInv hdr body bits
          dsimp only at hbd
          have hb2 := hbd el hel
          omega
    · push_neg at hsm
      replace hsm : ∀ el ∈ small_elems hdr body bits, ¬el.val < bits :=
        fun el hel => not_lt.mpr (hsm el hel)
      have hrep := is_rep_no_smaller_eval hdr body bits hsym hsm
      have hr_bits :
          (batch_acc_reduce (small_process hdr body bits)).1 = bits := by
        obtain ⟨hle, -, -, hlt⟩ := small_TripInv hdr body bits
        dsimp only at hle hlt
        rcases lt_or_eq_of_le hle with h | h
        · obtain ⟨el, hel, hv, -, -⟩ := hlt h
          exact absurd (hv ▸ h) (hsm el hel)
        · exact h
      by_cases hneg :
          snap ((batch_acc_reduce (small_process hdr body bits)).2.2.2) < 0
      · refine iff_of_false ?_ ?_
        · rw [hrep, if_pos hneg]
          simp
        · rintro ⟨cre, cim, nm, hg, -⟩
          unfold get_state_info_small at hg
          rw [get_state_info_small_raw_none hdr body bits hsym hneg] at hg
          simp at hg
      · rw [hrep, if_neg hneg]
        have hg : get_state_info_small hdr body bits =
            some (bits,
              (batch_acc_reduce (small_process hdr body bits)).2.1,
              (batch_acc_reduce (small_process hdr body bits)).2.2.1,
              Real.sqrt ((snap ((batch_acc_reduce
                  (small_process hdr body bits)).2.2.2) /
                (small_group_size hdr body : ℚ) : ℚ) : ℝ)) := by
          unfold get_state_info_small
          rw [get_state_info_small_raw_eval hdr body bits hsym hneg]
          simp only [Option.map_some']
          rw [hr_bits]
        constructor
        · intro h
          have hpos : 0 < snap
              ((batch_acc_reduce (small_process hdr body bits)).2.2.2) :=
            of_decide_eq_true (Option.some.inj h)
          refine ⟨_, _, _, hg, ?_⟩
          have hne : small_elems hdr body bits ≠ [] := by
            intro hnil
            rw [small_reduce_n, hnil] at hpos
            norm_num [stab_sum, snap] at hpos
          have hsize : 0 < small_group_size hdr body :=
            small_group_size_pos hdr body bits hne
          apply Real.sqrt_pos.mpr
          have hdiv : (0 : ℚ) < snap
              ((batch_acc_reduce (small_process hdr body bits)).2.2.2) /
              (small_group_size hdr body : ℚ) :=
            div_pos hpos (by exact_mod_cast hsize)
          exact_mod_cast hdiv
        · rintro ⟨cre, cim, nm, hg', hpos⟩
          have h2 := hg.symm.trans hg'
          simp only [Option.some.injEq, Prod.mk.injEq] at h2
          obtain ⟨-, -, -, hnm⟩ := h2
          rw [← hnm] at hpos
          have h3 := Real.sqrt_pos.mp hpos
          have h4 : (0 : ℚ) < snap
              ((batch_acc_reduce (small_process hdr body bits)).2.2.2) /
              (small_group_size hdr body : ℚ) := by
            exact_mod_cast h3
          have hq : 0 < snap
              ((batch_acc_reduce (small_process hdr body bits)).2.2.2) := by
            rcases lt_trichotomy
              (snap ((batch_acc_reduce
                (small_process hdr body bits)).2.2.2)) 0 with h | h | h
            · exact absurd h hneg
            · rw [h, zero_div] at h4
              exact absurd h4 (lt_irrefl 0)
            · exact h
          simp [hq]
  · have h1 : is_representative_small hdr body bits = some true := by
      unfold is_representative_small
      rw [if_pos hsym]
    have h2 : get_state_info_small hdr body bits =
        some (bits, 1, 0, Real.sqrt ((1 : ℚ) : ℝ)) := by
      unfold get_state_info_small get_state_info_small_raw
      rw [if_pos hsym]
      rfl
    rw [h1, h2]
    refine iff_of_true rfl ⟨1, 0, _, rfl, ?_⟩
    rw [Rat.cast_one, Real.sqrt_one]
    norm_num

/-- Witness for C6 at concrete inputs: a length mismatch errors, a sector
mismatch on identical permutations errors, and `equal` is reflexive. -/
theorem C6_equal_cases_witness :
    equal ⟨[0, 1], 0, 1⟩ ⟨[0], 0, 1⟩ = .error .IncompatibleSymmetries ∧
    equal ⟨[1, 0], 0, 2⟩ ⟨[1, 0], 1, 2⟩ = .error .IncompatibleSymmetries ∧
    equal ⟨[1, 0], 1, 2⟩ ⟨[1, 0], 1, 2⟩ = .ok true := by
  refine ⟨(C6_equal_cases ⟨[0, 1], 0, 1⟩ ⟨[0], 0, 1⟩).1 (by decide),
    (C6_equal_cases ⟨[1, 0], 0, 2⟩ ⟨[1, 0], 1, 2⟩).2.2.2.1
      (by decide) (by decide) (by decide) (by decide),
    (C6_equal_cases ⟨[1, 0], 1, 2⟩ ⟨[1, 0], 1, 2⟩).2.2.2.2.2⟩

end LatticeSymmetries
